import Mathlib

set_option maxHeartbeats 1000000
set_option maxRecDepth 100000

/-!
Verification of the NanoBoyAdvance event scheduler (`src/nba/src/scheduler.hpp`)
and the PPU memory accessors (`src/nba/src/hw/ppu/ppu.hpp`).

The scheduler is embedded as a state record: `heap` maps a heap-array index to
the event-slot id stored there (a slot id stands for one of the 64 pointers
allocated by the constructor), `handle` maps a slot id to its current heap
index (the `Event::handle` field), and `timestamp`/`callback` map a slot id to
the slot's `u64` timestamp and its callback label.  Callback invocation is
modelled as appending `(slot, callback, timestamp)` to a log, since callbacks
are opaque `std::function` values supplied by the caller.  Loops are embedded
as structural recursion on an explicit iteration bound (`fuel`); the bound used
at every call site is the exact bound of the corresponding C++ loop.
-/

/-- Modulus of `u64` timestamp arithmetic. -/
def U64 : Nat := 2 ^ 64

/-- State of `nba::core::Scheduler`. -/
structure Scheduler where
  heap : Nat → Nat
  handle : Nat → Nat
  timestamp : Nat → Nat
  callback : Nat → Nat
  heap_size : Nat
  timestamp_now : Nat

/-- The fixed event-pool capacity `kMaxEvents = 64`. -/
def Scheduler.kMaxEvents : Nat := 64

/-- `Scheduler::Swap(i, j)`: exchange the two heap pointers and refresh the
`handle` field of both events. -/
def Scheduler.Swap (s : Scheduler) (i j : Nat) : Scheduler :=
  let a := s.heap i
  let b := s.heap j
  { s with
    heap := Function.update (Function.update s.heap i b) j a
    handle := Function.update (Function.update s.handle b i) a j }

/-- The sift-up loop shared by `Scheduler::Add` and the first branch of
`Scheduler::Remove`: while `n != 0` and the parent's timestamp exceeds node
`n`'s, swap `n` with its parent.  `fuel` bounds the iteration count; every
call site passes the starting position `n`, which bounds the loop exactly
since the position strictly decreases each iteration. -/
def Scheduler.siftUp : Nat → Scheduler → Nat → Scheduler
  | 0, s, _ => s
  | fuel + 1, s, n =>
    if n ≠ 0 ∧ s.timestamp (s.heap ((n - 1) / 2)) > s.timestamp (s.heap n) then
      Scheduler.siftUp fuel (s.Swap n ((n - 1) / 2)) ((n - 1) / 2)
    else s

/-- `Scheduler::Add(delay, callback)`: place the new event in the slot at index
`heap_size`, stamp it `now + delay` (mod 2^64), then sift it up.  Returns the
new state, the slot id handed back to the caller, and whether the capacity
assertion `heap_size <= kMaxEvents` (checked after the increment) failed. -/
def Scheduler.Add (s : Scheduler) (delay : Nat) (cb : Nat) : Scheduler × Nat × Bool :=
  let n := s.heap_size
  let assertFailed := decide (Scheduler.kMaxEvents < n + 1)
  let event := s.heap n
  let s1 : Scheduler :=
    { s with
      heap_size := n + 1
      timestamp := Function.update s.timestamp event ((s.timestamp_now + delay) % U64)
      callback := Function.update s.callback event cb }
  (Scheduler.siftUp n s1 n, event, assertFailed)

/-- `Scheduler::Heapify(n)` against a fixed `heap_size` value `sz` (the C++
method reads the member `heap_size`, which it never modifies): sift node `n`
down through its left child, then through its right child.  `fuel` bounds the
recursion depth; call sites pass `sz`, which dominates the tree depth. -/
def Scheduler.Heapify (sz : Nat) : Nat → Scheduler → Nat → Scheduler
  | 0, s, _ => s
  | fuel + 1, s, n =>
    let l := 2 * n + 1
    let r := 2 * n + 2
    let s1 :=
      if l < sz ∧ s.timestamp (s.heap l) < s.timestamp (s.heap n) then
        Scheduler.Heapify sz fuel (s.Swap l n) l
      else s
    if r < sz ∧ s1.timestamp (s1.heap r) < s1.timestamp (s1.heap n) then
      Scheduler.Heapify sz fuel (s1.Swap r n) r
    else s1

/-- `Scheduler::Remove(n)`: swap node `n` with the last heap element while
decrementing `heap_size`, then restore the heap order by sifting the moved
element up (when it undercuts its parent, the do-while loop, which under its
entry guard coincides with the sift-up while loop) or down (`Heapify`). -/
def Scheduler.Remove (s : Scheduler) (n : Nat) : Scheduler :=
  let hs := s.heap_size - 1
  let s2 := Scheduler.Swap { s with heap_size := hs } n hs
  if n ≠ 0 ∧ s2.timestamp (s2.heap ((n - 1) / 2)) > s2.timestamp (s2.heap n) then
    Scheduler.siftUp n s2 n
  else
    Scheduler.Heapify hs hs s2 n

/-- `Scheduler::Cancel(event)`: remove the event at the heap index recorded in
its `handle` field. -/
def Scheduler.Cancel (s : Scheduler) (event : Nat) : Scheduler :=
  s.Remove (s.handle event)

/-- The drain loop of `Scheduler::Step(timestamp_next)`: while the root's
timestamp is at most `t` and the heap is non-empty, set `now` to the root's
timestamp, invoke its callback (logged as `(slot, callback, timestamp)`), and
remove it.  `fuel` bounds the iterations; the call site passes `heap_size`,
which is exact since every iteration removes one event. -/
def Scheduler.StepGo (t : Nat) : Nat → Scheduler → Scheduler × List (Nat × Nat × Nat)
  | 0, s => (s, [])
  | fuel + 1, s =>
    if s.timestamp (s.heap 0) ≤ t ∧ 0 < s.heap_size then
      let event := s.heap 0
      let s1 := { s with timestamp_now := s.timestamp event }
      let s2 := s1.Remove (s1.handle event)
      let rest := Scheduler.StepGo t fuel s2
      (rest.1, (event, s.callback event, s.timestamp event) :: rest.2)
    else (s, [])

/-- `Scheduler::Step(timestamp_next)`. -/
def Scheduler.Step (s : Scheduler) (timestamp_next : Nat) : Scheduler × List (Nat × Nat × Nat) :=
  Scheduler.StepGo timestamp_next s.heap_size s

/-- `Scheduler::AddCycles(cycles)`: compute the new deadline, drain every due
event through `Step`, then commit `timestamp_now` to the deadline. -/
def Scheduler.AddCycles (s : Scheduler) (cycles : Nat) : Scheduler × List (Nat × Nat × Nat) :=
  let timestamp_next := (s.timestamp_now + cycles) % U64
  let r := s.Step timestamp_next
  ({ r.1 with timestamp_now := timestamp_next }, r.2)

/-- `Scheduler::Reset()`: empty the heap, reset `now`, and add the sentinel
event at the maximum `u64` timestamp (its callback label is 0; in the C++ it
asserts unreachability). -/
def Scheduler.Reset (s : Scheduler) : Scheduler :=
  (Scheduler.Add { s with heap_size := 0, timestamp_now := 0 } (U64 - 1) 0).1

/-- The `Scheduler` constructor: slot `i` sits at heap index `i` with
`handle = i` (timestamps and callbacks are default-initialised to 0), then
`Reset()` runs. -/
def Scheduler.new : Scheduler :=
  Scheduler.Reset
    { heap := id, handle := id, timestamp := fun _ => 0, callback := fun _ => 0,
      heap_size := 0, timestamp_now := 0 }

/-- Min-heap order on the first `hs` heap entries: each non-root node's parent
carries a timestamp at most its own. -/
def Scheduler.HProp (s : Scheduler) (hs : Nat) : Prop :=
  ∀ i, i < hs → 0 < i → s.timestamp (s.heap ((i - 1) / 2)) ≤ s.timestamp (s.heap i)

/-- Index-tracking invariant: each of the 64 pool slots records the heap index
at which its pointer currently sits. -/
def Scheduler.HandleInv (s : Scheduler) : Prop :=
  ∀ i, i < 64 → s.handle (s.heap i) = i

/-- The scheduler's structural invariant. -/
def Scheduler.Inv (s : Scheduler) : Prop :=
  s.heap_size ≤ 64 ∧ s.HandleInv ∧ s.HProp s.heap_size

/-- The list of pending event slots, in heap-array order. -/
def Scheduler.pendL (s : Scheduler) : List Nat :=
  (List.range s.heap_size).map s.heap

/-- The three PPU memory regions addressed by the bus accessors. -/
inductive Region
  | pram
  | vram
  | oam
deriving DecidableEq

/-- Observable effects of one PPU write accessor call: a raw store of `width`
bytes at `offset` into a region, or a call to `PPU::Sync()`. -/
inductive Ev
  | store (region : Region) (offset width : Nat)
  | sync
deriving DecidableEq

/-- State of `nba::core::PPU` as far as the memory accessors reach it: the
three backing byte arrays (`pram`, `oam`, `vram`, modelled as byte maps), the
`mmio.dispcnt.mode` field read by `WriteVRAM` (its register file lives outside
the sources at hand), and the trace of stores and `Sync()` calls. -/
structure PPU where
  pram : Nat → Nat
  oam : Nat → Nat
  vram : Nat → Nat
  mode : Nat
  trace : List Ev

/-- Modelled from the spec: the raw typed read `read<T>(array, offset)` from
`nba/common/punning.hpp` (not among the sources at hand) — the spec's
width-parameterized accessors read `w` bytes at a byte offset, assembled
little-endian. -/
def readLE : Nat → (Nat → Nat) → Nat → Nat
  | 0, _, _ => 0
  | w + 1, mem, off => mem off + 256 * readLE w mem (off + 1)

/-- Modelled from the spec: the raw typed write `write<T>(array, offset, v)`
from `nba/common/punning.hpp` (not among the sources at hand) — the spec's
width-parameterized accessors store the `w` bytes of `v` at a byte offset,
little-endian. -/
def writeLE : Nat → (Nat → Nat) → Nat → Nat → (Nat → Nat)
  | 0, mem, _, _ => mem
  | w + 1, mem, off, v => writeLE w (Function.update mem off (v % 256)) (off + 1) (v / 256)

/-- Modelled from the spec: `PPU::Sync()` forces the renderer/composer to
catch up to now; its body lives in `ppu.cpp` (not among the sources at hand),
so here it is an observable trace event. -/
def PPU.Sync (p : PPU) : PPU :=
  { p with trace := p.trace ++ [Ev.sync] }

/-- `PPU::ReadPRAM<T>`: width `w` is `sizeof(T)` bytes (1, 2 or 4). -/
def PPU.ReadPRAM (w : Nat) (p : PPU) (address : Nat) : Nat :=
  readLE w p.pram (address &&& 0x3FF)

/-- `PPU::WritePRAM<T>`: an 8-bit value is replicated into both bytes of the
16-bit word at `address & 0x3FE`; wider writes go through unchanged at
`address & 0x3FF`.  `Sync()` runs after the store.  The `% 256` models the
`u8` type of the replicated value. -/
def PPU.WritePRAM (w : Nat) (p : PPU) (address value : Nat) : PPU :=
  if w = 1 then
    PPU.Sync { p with
      pram := writeLE 2 p.pram (address &&& 0x3FE) (value % 256 * 0x0101)
      trace := p.trace ++ [Ev.store Region.pram (address &&& 0x3FE) 2] }
  else
    PPU.Sync { p with
      pram := writeLE w p.pram (address &&& 0x3FF) value
      trace := p.trace ++ [Ev.store Region.pram (address &&& 0x3FF) w] }

/-- `PPU::ReadVRAM<T>`: mask to 128 KiB, fold the upper 32 KiB mirror
(`address &= ~0x8000` when `address >= 0x18000`), then read. -/
def PPU.ReadVRAM (w : Nat) (p : PPU) (address : Nat) : Nat :=
  let a1 := address &&& 0x1FFFF
  let a2 := if a1 ≥ 0x18000 then a1 &&& 0xFFFF7FFF else a1
  readLE w p.vram a2

/-- `PPU::WriteVRAM<T>`: after the same mirroring as `ReadVRAM`, an 8-bit
write below the mode-dependent limit (0x14000 in bitmap modes `mode >= 3`,
else 0x10000) is replicated into the 16-bit word at `address & ~1`, and is
discarded at or above the limit; wider writes go through unchanged.  `Sync()`
runs afterwards in every case. -/
def PPU.WriteVRAM (w : Nat) (p : PPU) (address value : Nat) : PPU :=
  let a1 := address &&& 0x1FFFF
  let a2 := if a1 ≥ 0x18000 then a1 &&& 0xFFFF7FFF else a1
  if w = 1 then
    let limit := if p.mode ≥ 3 then 0x14000 else 0x10000
    if a2 < limit then
      PPU.Sync { p with
        vram := writeLE 2 p.vram (a2 &&& 0xFFFFFFFE) (value % 256 * 0x0101)
        trace := p.trace ++ [Ev.store Region.vram (a2 &&& 0xFFFFFFFE) 2] }
    else
      PPU.Sync p
  else
    PPU.Sync { p with
      vram := writeLE w p.vram a2 value
      trace := p.trace ++ [Ev.store Region.vram a2 w] }

/-- `PPU::ReadOAM<T>`. -/
def PPU.ReadOAM (w : Nat) (p : PPU) (address : Nat) : Nat :=
  readLE w p.oam (address &&& 0x3FF)

/-- `PPU::WriteOAM<T>`: 8-bit writes are discarded entirely (no store, and no
`Sync()` call anywhere in this accessor); 16/32-bit writes store at
`address & 0x3FF`. -/
def PPU.WriteOAM (w : Nat) (p : PPU) (address value : Nat) : PPU :=
  if w = 1 then p
  else
    { p with
      oam := writeLE w p.oam (address &&& 0x3FF) value
      trace := p.trace ++ [Ev.store Region.oam (address &&& 0x3FF) w] }

/-- A PPU state with zeroed memories, mode 0 and an empty trace. -/
def PPU.zeroed : PPU :=
  { pram := fun _ => 0, oam := fun _ => 0, vram := fun _ => 0, mode := 0, trace := [] }

/-- A zeroed PPU state in bitmap mode 3. -/
def PPU.zeroed3 : PPU :=
  { PPU.zeroed with mode := 3 }

/-- Descendant test on heap indices: `desc n i` holds when index `i` lies in
the binary-tree region rooted at index `n` (following parents `(i-1)/2`). -/
def Scheduler.desc (n : Nat) (i : Nat) : Bool :=
  if h1 : i = n then true
  else if h2 : i ≤ n then false
  else Scheduler.desc n ((i - 1) / 2)
termination_by i
decreasing_by omega

/-- Invariant of the sift-up loop at position `n`: the heap order holds at
every node other than `n`, and every child of `n` dominates `n`'s parent. -/
def Scheduler.UpInv (s : Scheduler) (hs n : Nat) : Prop :=
  (∀ i, i < hs → 0 < i → i ≠ n →
    s.timestamp (s.heap ((i - 1) / 2)) ≤ s.timestamp (s.heap i)) ∧
  (∀ j, j < hs → (j - 1) / 2 = n → j ≠ n → 0 < n →
    s.timestamp (s.heap ((n - 1) / 2)) ≤ s.timestamp (s.heap j))

/-- States reachable from a freshly constructed scheduler through the public
interface: `Add` called while fewer than 64 events are pending, `Cancel` of a
currently pending event, and `AddCycles`. -/
inductive Scheduler.Reach : Scheduler → Prop
  | new : Scheduler.Reach Scheduler.new
  | add (s : Scheduler) (delay cb : Nat) :
      Scheduler.Reach s → s.heap_size < 64 → Scheduler.Reach (s.Add delay cb).1
  | cancel (s : Scheduler) (e : Nat) :
      Scheduler.Reach s → e ∈ s.pendL → Scheduler.Reach (s.Cancel e)
  | addCycles (s : Scheduler) (c : Nat) :
      Scheduler.Reach s → Scheduler.Reach (s.AddCycles c).1

instance (s : Scheduler) (hs : Nat) : Decidable (s.HProp hs) := by
  unfold Scheduler.HProp; infer_instance

instance (s : Scheduler) : Decidable s.HandleInv := by
  unfold Scheduler.HandleInv; infer_instance

instance (s : Scheduler) : Decidable s.Inv := by
  unfold Scheduler.Inv; infer_instance

/-- A scheduler state whose event pool is fully occupied (64 pending events). -/
def Scheduler.full64 : Scheduler :=
  { heap := id, handle := id, timestamp := fun _ => 0, callback := fun _ => 0,
    heap_size := 64, timestamp_now := 0 }

/-- Example state: a fresh scheduler with three events added with delays
5, 3 and 8 (callback labels 1, 2, 3). -/
def Scheduler.ex538 : Scheduler :=
  (((Scheduler.new.Add 5 1).1.Add 3 2).1.Add 8 3).1

/-- Example state: delays 5 and 3 added, then the delay-5 event cancelled. -/
def Scheduler.exC2 : Scheduler :=
  ((Scheduler.new.Add 5 1).1.Add 3 2).1.Cancel (Scheduler.new.Add 5 1).2.1

/-- Example state: one event added with delay 20, then 3 cycles consumed. -/
def Scheduler.exC9 : Scheduler :=
  ((Scheduler.new.Add 20 5).1.AddCycles 3).1

/-- Example state: events with delays 100 and 50 pending on a fresh scheduler. -/
def Scheduler.exCancel : Scheduler :=
  ((Scheduler.new.Add 100 7).1.Add 50 8).1

/-- A PPU state whose bytes beyond each region's bounds differ from
`PPU.zeroed` (value 9 there), used to exercise the bounds claims. -/
def PPU.outAltered : PPU :=
  { PPU.zeroed with
    pram := fun k => if k < 0x400 then 0 else 9
    oam := fun k => if k < 0x400 then 0 else 9
    vram := fun k => if k < 0x18000 then 0 else 9 }

/-! ### Basic facts about `Swap` and the loop bodies -/

theorem Scheduler.Swap_heap (s : Scheduler) (i j k : Nat) :
    (s.Swap i j).heap k =
      if k = j then s.heap i else if k = i then s.heap j else s.heap k := by
  unfold Scheduler.Swap
  by_cases h1 : k = j
  · subst h1; simp [Function.update_same]
  · by_cases h2 : k = i
    · subst h2; simp [h1, Function.update_noteq, Function.update_same]
    · simp [h1, h2, Function.update_noteq]

theorem Scheduler.Swap_handle (s : Scheduler) (i j k : Nat) :
    (s.Swap i j).handle k =
      if k = s.heap i then j else if k = s.heap j then i else s.handle k := by
  unfold Scheduler.Swap
  by_cases h1 : k = s.heap i
  · subst h1; simp [Function.update_same]
  · by_cases h2 : k = s.heap j
    · subst h2; simp [h1, Function.update_noteq, Function.update_same]
    · simp [h1, h2, Function.update_noteq]

@[simp] theorem Scheduler.Swap_timestamp (s : Scheduler) (i j : Nat) :
    (s.Swap i j).timestamp = s.timestamp := rfl

@[simp] theorem Scheduler.Swap_callback (s : Scheduler) (i j : Nat) :
    (s.Swap i j).callback = s.callback := rfl

@[simp] theorem Scheduler.Swap_heap_size (s : Scheduler) (i j : Nat) :
    (s.Swap i j).heap_size = s.heap_size := rfl

@[simp] theorem Scheduler.Swap_timestamp_now (s : Scheduler) (i j : Nat) :
    (s.Swap i j).timestamp_now = s.timestamp_now := rfl

theorem Scheduler.siftUp_fields (fuel : Nat) : ∀ (s : Scheduler) (n : Nat),
    (Scheduler.siftUp fuel s n).timestamp = s.timestamp ∧
    (Scheduler.siftUp fuel s n).callback = s.callback ∧
    (Scheduler.siftUp fuel s n).heap_size = s.heap_size ∧
    (Scheduler.siftUp fuel s n).timestamp_now = s.timestamp_now := by
  induction fuel with
  | zero => intro s n; exact ⟨rfl, rfl, rfl, rfl⟩
  | succ f ih =>
    intro s n
    unfold Scheduler.siftUp
    split
    · exact ih _ _
    · exact ⟨rfl, rfl, rfl, rfl⟩

theorem Scheduler.Heapify_fields (sz : Nat) (fuel : Nat) : ∀ (s : Scheduler) (n : Nat),
    (Scheduler.Heapify sz fuel s n).timestamp = s.timestamp ∧
    (Scheduler.Heapify sz fuel s n).callback = s.callback ∧
    (Scheduler.Heapify sz fuel s n).heap_size = s.heap_size ∧
    (Scheduler.Heapify sz fuel s n).timestamp_now = s.timestamp_now := by
  induction fuel with
  | zero => intro s n; exact ⟨rfl, rfl, rfl, rfl⟩
  | succ f ih =>
    intro s n
    unfold Scheduler.Heapify
    dsimp only
    by_cases hl : 2 * n + 1 < sz ∧ s.timestamp (s.heap (2 * n + 1)) < s.timestamp (s.heap n)
    · rw [if_pos hl]
      obtain ⟨a1, a2, a3, a4⟩ := ih (s.Swap (2 * n + 1) n) (2 * n + 1)
      split
      · obtain ⟨b1, b2, b3, b4⟩ :=
          ih ((Scheduler.Heapify sz f (s.Swap (2 * n + 1) n) (2 * n + 1)).Swap (2 * n + 2) n)
            (2 * n + 2)
        exact ⟨by rw [b1]; exact a1, by rw [b2]; exact a2, by rw [b3]; exact a3,
          by rw [b4]; exact a4⟩
      · exact ⟨a1, a2, a3, a4⟩
    · rw [if_neg hl]
      split
      · obtain ⟨b1, b2, b3, b4⟩ := ih (s.Swap (2 * n + 2) n) (2 * n + 2)
        exact ⟨b1, b2, b3, b4⟩
      · exact ⟨rfl, rfl, rfl, rfl⟩

theorem Scheduler.Remove_fields (s : Scheduler) (n : Nat) :
    (s.Remove n).timestamp = s.timestamp ∧
    (s.Remove n).callback = s.callback ∧
    (s.Remove n).heap_size = s.heap_size - 1 ∧
    (s.Remove n).timestamp_now = s.timestamp_now := by
  unfold Scheduler.Remove
  dsimp only
  split
  · obtain ⟨a1, a2, a3, a4⟩ := Scheduler.siftUp_fields n _ n
    exact ⟨a1, a2, a3, a4⟩
  · obtain ⟨a1, a2, a3, a4⟩ := Scheduler.Heapify_fields (s.heap_size - 1) (s.heap_size - 1) _ n
    exact ⟨a1, a2, a3, a4⟩

/-! ### The handle-tracking invariant through each heap operation -/

theorem Scheduler.heap_inj (s : Scheduler) (h : s.HandleInv) :
    ∀ i j, i < 64 → j < 64 → s.heap i = s.heap j → i = j := by
  intro i j hi hj he
  have h1 := h i hi
  have h2 := h j hj
  rw [he] at h1
  exact h1.symm.trans h2

theorem Scheduler.Swap_HandleInv (s : Scheduler) (i j : Nat) (hi : i < 64) (hj : j < 64)
    (h : s.HandleInv) : (s.Swap i j).HandleInv := by
  intro k hk
  rw [Scheduler.Swap_heap]
  by_cases h1 : k = j
  · subst h1
    rw [if_pos rfl, Scheduler.Swap_handle, if_pos rfl]
  · by_cases h2 : k = i
    · rw [if_neg h1, if_pos h2, Scheduler.Swap_handle]
      by_cases h3 : s.heap j = s.heap i
      · have := Scheduler.heap_inj s h j i hj hi h3
        omega
      · rw [if_neg h3, if_pos rfl]
        exact h2.symm
    · rw [if_neg h1, if_neg h2, Scheduler.Swap_handle]
      by_cases h3 : s.heap k = s.heap i
      · exact absurd (Scheduler.heap_inj s h k i hk hi h3) h2
      · by_cases h4 : s.heap k = s.heap j
        · exact absurd (Scheduler.heap_inj s h k j hk hj h4) h1
        · rw [if_neg h3, if_neg h4]
          exact h k hk

theorem Scheduler.siftUp_HandleInv (fuel : Nat) : ∀ (s : Scheduler) (n : Nat), n < 64 →
    s.HandleInv → (Scheduler.siftUp fuel s n).HandleInv := by
  induction fuel with
  | zero => intro s n _ h; exact h
  | succ f ih =>
    intro s n hn h
    unfold Scheduler.siftUp
    split
    · exact ih _ _ (by omega) (Scheduler.Swap_HandleInv s n ((n - 1) / 2) hn (by omega) h)
    · exact h

theorem Scheduler.Heapify_HandleInv (sz : Nat) (hsz : sz ≤ 64) (fuel : Nat) :
    ∀ (s : Scheduler) (n : Nat), s.HandleInv → (Scheduler.Heapify sz fuel s n).HandleInv := by
  induction fuel with
  | zero => intro s n h; exact h
  | succ f ih =>
    intro s n h
    unfold Scheduler.Heapify
    dsimp only
    by_cases hl : 2 * n + 1 < sz ∧ s.timestamp (s.heap (2 * n + 1)) < s.timestamp (s.heap n)
    · rw [if_pos hl]
      have h1 := ih _ (2 * n + 1) (Scheduler.Swap_HandleInv s (2 * n + 1) n (by omega) (by omega) h)
      split
      · next hr =>
        exact ih _ (2 * n + 2) (Scheduler.Swap_HandleInv _ (2 * n + 2) n (by omega) (by omega) h1)
      · exact h1
    · rw [if_neg hl]
      split
      · next hr =>
        exact ih _ (2 * n + 2) (Scheduler.Swap_HandleInv s (2 * n + 2) n (by omega) (by omega) h)
      · exact h

theorem Scheduler.Remove_HandleInv (s : Scheduler) (n : Nat) (hs : s.heap_size ≤ 64)
    (hn : n < 64) (h : s.HandleInv) : (s.Remove n).HandleInv := by
  unfold Scheduler.Remove
  dsimp only
  have hsw : (Scheduler.Swap { s with heap_size := s.heap_size - 1 } n
      (s.heap_size - 1)).HandleInv :=
    Scheduler.Swap_HandleInv _ n (s.heap_size - 1) hn (by omega) h
  split
  · exact Scheduler.siftUp_HandleInv n _ n hn hsw
  · exact Scheduler.Heapify_HandleInv (s.heap_size - 1) (by omega) (s.heap_size - 1) _ n hsw

/-! ### The descendant relation on heap indices -/

theorem Scheduler.desc_refl (n : Nat) : Scheduler.desc n n = true := by
  unfold Scheduler.desc
  simp

theorem Scheduler.desc_le (n : Nat) : ∀ i, Scheduler.desc n i = true → n ≤ i := by
  intro i
  induction i using Nat.strong_induction_on with
  | _ i ih =>
    intro h
    unfold Scheduler.desc at h
    split at h
    · omega
    · split at h
      · exact absurd h (by simp)
      · have := ih ((i - 1) / 2) (by omega) h
        omega

theorem Scheduler.desc_step (n i : Nat) (h : Scheduler.desc n i = true) (hne : i ≠ n) :
    n < i ∧ Scheduler.desc n ((i - 1) / 2) = true := by
  unfold Scheduler.desc at h
  split at h
  · omega
  · split at h
    · exact absurd h (by simp)
    · exact ⟨by omega, h⟩

theorem Scheduler.desc_child_left (n i : Nat) (h : Scheduler.desc n i = true) :
    Scheduler.desc n (2 * i + 1) = true := by
  have hle := Scheduler.desc_le n i h
  unfold Scheduler.desc
  split
  · rfl
  · split
    · omega
    · have e : (2 * i + 1 - 1) / 2 = i := by omega
      rw [e]
      exact h

theorem Scheduler.desc_child_right (n i : Nat) (h : Scheduler.desc n i = true) :
    Scheduler.desc n (2 * i + 2) = true := by
  have hle := Scheduler.desc_le n i h
  unfold Scheduler.desc
  split
  · rfl
  · split
    · omega
    · have e : (2 * i + 2 - 1) / 2 = i := by omega
      rw [e]
      exact h

theorem Scheduler.desc_trans (n m : Nat) (hnm : Scheduler.desc n m = true) :
    ∀ i, Scheduler.desc m i = true → Scheduler.desc n i = true := by
  intro i
  induction i using Nat.strong_induction_on with
  | _ i ih =>
    intro h
    by_cases he : i = m
    · subst he; exact hnm
    · obtain ⟨hlt, hp⟩ := Scheduler.desc_step m i h he
      have hd := ih ((i - 1) / 2) (by omega) hp
      have : i = 2 * ((i - 1) / 2) + 1 ∨ i = 2 * ((i - 1) / 2) + 2 := by omega
      rcases this with e | e
      · rw [e]; exact Scheduler.desc_child_left n _ hd
      · rw [e]; exact Scheduler.desc_child_right n _ hd

theorem Scheduler.desc_split (n : Nat) : ∀ i, Scheduler.desc n i = true →
    i = n ∨ Scheduler.desc (2 * n + 1) i = true ∨ Scheduler.desc (2 * n + 2) i = true := by
  intro i
  induction i using Nat.strong_induction_on with
  | _ i ih =>
    intro h
    by_cases he : i = n
    · exact Or.inl he
    · obtain ⟨hlt, hp⟩ := Scheduler.desc_step n i h he
      have hi2 : i = 2 * ((i - 1) / 2) + 1 ∨ i = 2 * ((i - 1) / 2) + 2 := by omega
      rcases ih ((i - 1) / 2) (by omega) hp with hc | hc | hc
      · rcases hi2 with e | e
        · refine Or.inr (Or.inl ?_)
          rw [e, hc]
          exact Scheduler.desc_refl _
        · refine Or.inr (Or.inr ?_)
          rw [e, hc]
          exact Scheduler.desc_refl _
      · refine Or.inr (Or.inl ?_)
        rcases hi2 with e | e
        · rw [e]; exact Scheduler.desc_child_left _ _ hc
        · rw [e]; exact Scheduler.desc_child_right _ _ hc
      · refine Or.inr (Or.inr ?_)
        rcases hi2 with e | e
        · rw [e]; exact Scheduler.desc_child_left _ _ hc
        · rw [e]; exact Scheduler.desc_child_right _ _ hc

theorem Scheduler.desc_false_of_lt (n i : Nat) (h : i < n) : ¬ Scheduler.desc n i = true := by
  intro hd
  have := Scheduler.desc_le n i hd
  omega

theorem Scheduler.desc_sibling_disj (n : Nat) : ∀ i,
    Scheduler.desc (2 * n + 1) i = true → Scheduler.desc (2 * n + 2) i = true → False := by
  intro i
  induction i using Nat.strong_induction_on with
  | _ i ih =>
    intro h1 h2
    have hle1 := Scheduler.desc_le _ _ h1
    have hle2 := Scheduler.desc_le _ _ h2
    by_cases e1 : i = 2 * n + 1
    · omega
    · by_cases e2 : i = 2 * n + 2
      · subst e2
        obtain ⟨_, hp⟩ := Scheduler.desc_step _ _ h1 (by omega)
        have e : (2 * n + 2 - 1) / 2 = n := by omega
        rw [e] at hp
        have := Scheduler.desc_le _ _ hp
        omega
      · obtain ⟨_, hp1⟩ := Scheduler.desc_step _ _ h1 e1
        obtain ⟨_, hp2⟩ := Scheduler.desc_step _ _ h2 e2
        exact ih ((i - 1) / 2) (by omega) hp1 hp2

theorem Scheduler.desc_zero : ∀ i, Scheduler.desc 0 i = true := by
  intro i
  induction i using Nat.strong_induction_on with
  | _ i ih =>
    unfold Scheduler.desc
    split
    · rfl
    · split
      · omega
      · exact ih ((i - 1) / 2) (by omega)

/-- Chasing parent links: if every parent-child pair inside the region rooted
at `x` (except at `x` itself) is heap-ordered, the root bounds every member. -/
theorem Scheduler.chain_le (s : Scheduler) (hs : Nat) (x : Nat)
    (H : ∀ i, i < hs → 0 < i → Scheduler.desc x i = true → i ≠ x →
      s.timestamp (s.heap ((i - 1) / 2)) ≤ s.timestamp (s.heap i)) :
    ∀ y, Scheduler.desc x y = true → y < hs →
      s.timestamp (s.heap x) ≤ s.timestamp (s.heap y) := by
  intro y
  induction y using Nat.strong_induction_on with
  | _ y ih =>
    intro hd hy
    by_cases he : y = x
    · subst he; exact le_refl _
    · obtain ⟨hlt, hp⟩ := Scheduler.desc_step x y hd he
      have h1 := ih ((y - 1) / 2) (by omega) hp (by omega)
      have h2 := H y hy (by omega) hd he
      exact h1.trans h2

/-- The root of a well-ordered heap carries the minimum timestamp. -/
theorem Scheduler.root_min (s : Scheduler) (hs : Nat) (h : s.HProp hs) :
    ∀ i, i < hs → s.timestamp (s.heap 0) ≤ s.timestamp (s.heap i) := by
  intro i hi
  exact Scheduler.chain_le s hs 0
    (fun j hj hj0 _ _ => h j hj hj0) i (Scheduler.desc_zero i) hi

/-! ### Pending-set membership through swaps -/

theorem Scheduler.Swap_heap_left (s : Scheduler) (i j : Nat) :
    (s.Swap i j).heap j = s.heap i := by
  rw [Scheduler.Swap_heap, if_pos rfl]

theorem Scheduler.Swap_heap_right (s : Scheduler) (i j : Nat) :
    (s.Swap i j).heap i = s.heap j := by
  rw [Scheduler.Swap_heap]
  by_cases h : i = j
  · rw [if_pos h, h]
  · rw [if_neg h, if_pos rfl]

theorem Scheduler.Swap_heap_of_ne (s : Scheduler) (i j k : Nat) (h1 : k ≠ j) (h2 : k ≠ i) :
    (s.Swap i j).heap k = s.heap k := by
  rw [Scheduler.Swap_heap, if_neg h1, if_neg h2]

theorem Scheduler.mem_pendL (s : Scheduler) (x : Nat) :
    x ∈ s.pendL ↔ ∃ i, i < s.heap_size ∧ s.heap i = x := by
  unfold Scheduler.pendL
  simp [List.mem_map, List.mem_range]

theorem Scheduler.pendL_nodup (s : Scheduler) (hs64 : s.heap_size ≤ 64) (h : s.HandleInv) :
    s.pendL.Nodup := by
  unfold Scheduler.pendL
  refine List.Nodup.map_on ?_ (List.nodup_range _)
  intro i hi j hj he
  rw [List.mem_range] at hi hj
  exact Scheduler.heap_inj s h i j (by omega) (by omega) he

theorem perm_nodup_ext {l l' : List Nat} (h1 : l.Nodup) (h2 : l'.Nodup)
    (h : ∀ x, x ∈ l ↔ x ∈ l') : l.Perm l' := by
  refine List.perm_of_nodup_nodup_toFinset_eq h1 h2 ?_
  ext x
  simp only [List.mem_toFinset]
  exact h x

theorem Scheduler.Swap_mem_pendL (s : Scheduler) (i j : Nat) (hi : i < s.heap_size)
    (hj : j < s.heap_size) (x : Nat) : x ∈ (s.Swap i j).pendL ↔ x ∈ s.pendL := by
  rw [Scheduler.mem_pendL, Scheduler.mem_pendL]
  constructor
  · rintro ⟨k, hk, he⟩
    rw [Scheduler.Swap_heap_size] at hk
    rw [Scheduler.Swap_heap] at he
    split_ifs at he with e1 e2
    · exact ⟨i, hi, he⟩
    · exact ⟨j, hj, he⟩
    · exact ⟨k, hk, he⟩
  · rintro ⟨k, hk, he⟩
    by_cases e1 : k = i
    · refine ⟨j, by rw [Scheduler.Swap_heap_size]; exact hj, ?_⟩
      rw [Scheduler.Swap_heap_left, ← e1]
      exact he
    · by_cases e2 : k = j
      · refine ⟨i, by rw [Scheduler.Swap_heap_size]; exact hi, ?_⟩
        rw [Scheduler.Swap_heap_right, ← e2]
        exact he
      · refine ⟨k, by rw [Scheduler.Swap_heap_size]; exact hk, ?_⟩
        rw [Scheduler.Swap_heap_of_ne s i j k e2 e1]
        exact he

theorem Scheduler.siftUp_mem_pendL (fuel : Nat) : ∀ (s : Scheduler) (n : Nat),
    n < s.heap_size → ∀ x, (x ∈ (Scheduler.siftUp fuel s n).pendL ↔ x ∈ s.pendL) := by
  induction fuel with
  | zero => intro s n _ x; exact Iff.rfl
  | succ f ih =>
    intro s n hn x
    unfold Scheduler.siftUp
    split
    · next hcond =>
      obtain ⟨hn0, _⟩ := hcond
      have h1 := ih (s.Swap n ((n - 1) / 2)) ((n - 1) / 2)
        (by rw [Scheduler.Swap_heap_size]; omega) x
      rw [h1]
      exact Scheduler.Swap_mem_pendL s n ((n - 1) / 2) hn (by omega) x
    · exact Iff.rfl

theorem Scheduler.Heapify_mem_pendL (sz : Nat) (fuel : Nat) : ∀ (s : Scheduler) (n : Nat),
    s.heap_size = sz → ∀ x,
      (x ∈ (Scheduler.Heapify sz fuel s n).pendL ↔ x ∈ s.pendL) := by
  induction fuel with
  | zero => intro s n _ x; exact Iff.rfl
  | succ f ih =>
    intro s n hsz x
    unfold Scheduler.Heapify
    dsimp only
    by_cases hl : 2 * n + 1 < sz ∧ s.timestamp (s.heap (2 * n + 1)) < s.timestamp (s.heap n)
    · rw [if_pos hl]
      have m1 : ∀ y, y ∈ (Scheduler.Heapify sz f (s.Swap (2 * n + 1) n) (2 * n + 1)).pendL ↔
          y ∈ s.pendL := by
        intro y
        rw [ih (s.Swap (2 * n + 1) n) (2 * n + 1) (by rw [Scheduler.Swap_heap_size]; exact hsz) y]
        exact Scheduler.Swap_mem_pendL s (2 * n + 1) n (by omega) (by omega) y
      split
      · next hr =>
        have hsz1 : (Scheduler.Heapify sz f (s.Swap (2 * n + 1) n) (2 * n + 1)).heap_size = sz := by
          rw [(Scheduler.Heapify_fields sz f _ _).2.2.1, Scheduler.Swap_heap_size]
          exact hsz
        have hb1 : 2 * n + 2 <
            (Scheduler.Heapify sz f (s.Swap (2 * n + 1) n) (2 * n + 1)).heap_size := by
          rw [hsz1]; omega
        have hb2 : n <
            (Scheduler.Heapify sz f (s.Swap (2 * n + 1) n) (2 * n + 1)).heap_size := by
          rw [hsz1]; omega
        rw [ih _ (2 * n + 2) (by rw [Scheduler.Swap_heap_size]; exact hsz1) x,
          Scheduler.Swap_mem_pendL _ (2 * n + 2) n hb1 hb2 x]
        exact m1 x
      · exact m1 x
    · rw [if_neg hl]
      split
      · next hr =>
        rw [ih (s.Swap (2 * n + 2) n) (2 * n + 2) (by rw [Scheduler.Swap_heap_size]; exact hsz) x]
        exact Scheduler.Swap_mem_pendL s (2 * n + 2) n (by omega) (by omega) x
      · exact Iff.rfl

/-! ### Correctness of the sift-up loop -/

theorem Scheduler.siftUp_HProp (fuel : Nat) : ∀ (s : Scheduler) (n hs : Nat),
    n < hs → n ≤ fuel → s.UpInv hs n → (Scheduler.siftUp fuel s n).HProp hs := by
  induction fuel with
  | zero =>
    intro s n hs hn hfuel hup
    intro i hi hi0
    exact hup.1 i hi hi0 (by omega)
  | succ f ih =>
    intro s n hs hn hfuel hup
    unfold Scheduler.siftUp
    split
    · next hcond =>
      obtain ⟨hn0, hgt⟩ := hcond
      have hn0' : 0 < n := Nat.pos_of_ne_zero hn0
      apply ih (s.Swap n ((n - 1) / 2)) ((n - 1) / 2) hs (by omega) (by omega)
      constructor
      · intro i hi hi0 hip
        simp only [Scheduler.Swap_timestamp]
        by_cases hin : i = n
        · subst hin
          rw [Scheduler.Swap_heap_left, Scheduler.Swap_heap_right]
          exact Nat.le_of_lt hgt
        · by_cases hpar1 : (i - 1) / 2 = n
          · rw [hpar1, Scheduler.Swap_heap_right,
              Scheduler.Swap_heap_of_ne s n ((n - 1) / 2) i (by omega) hin]
            exact hup.2 i hi hpar1 hin hn0'
          · by_cases hpar2 : (i - 1) / 2 = (n - 1) / 2
            · rw [hpar2, Scheduler.Swap_heap_left,
                Scheduler.Swap_heap_of_ne s n ((n - 1) / 2) i hip hin]
              have h1 := hup.1 i hi hi0 hin
              rw [hpar2] at h1
              exact le_trans (Nat.le_of_lt hgt) h1
            · rw [Scheduler.Swap_heap_of_ne s n ((n - 1) / 2) _ hpar2 hpar1,
                Scheduler.Swap_heap_of_ne s n ((n - 1) / 2) i hip hin]
              exact hup.1 i hi hi0 hin
      · intro j hj hjp hjne hp0
        simp only [Scheduler.Swap_timestamp]
        have hpp : ((n - 1) / 2 - 1) / 2 ≠ (n - 1) / 2 := by omega
        have hppn : ((n - 1) / 2 - 1) / 2 ≠ n := by omega
        rw [Scheduler.Swap_heap_of_ne s n ((n - 1) / 2) _ hpp hppn]
        by_cases hjn : j = n
        · rw [hjn, Scheduler.Swap_heap_right]
          exact hup.1 ((n - 1) / 2) (by omega) hp0 (by omega)
        · rw [Scheduler.Swap_heap_of_ne s n ((n - 1) / 2) j hjne hjn]
          have h1 := hup.1 ((n - 1) / 2) (by omega) hp0 (by omega)
          have h2 := hup.1 j hj (by omega) hjn
          rw [hjp] at h2
          exact le_trans h1 h2
    · next hcond =>
      intro i hi hi0
      by_cases hin : i = n
      · subst hin
        by_cases hn0 : i = 0
        · omega
        · have hle : ¬ s.timestamp (s.heap ((i - 1) / 2)) > s.timestamp (s.heap i) :=
            fun hgt => hcond ⟨hn0, hgt⟩
          omega
      · exact hup.1 i hi hi0 hin

/-! ### Correctness of `Heapify` -/

theorem Scheduler.desc_not_left_right (n : Nat) :
    ¬ Scheduler.desc (2 * n + 1) (2 * n + 2) = true := by
  intro h
  rcases Scheduler.desc_step _ _ h (by omega) with ⟨_, hp⟩
  have e : (2 * n + 2 - 1) / 2 = n := by omega
  rw [e] at hp
  have := Scheduler.desc_le _ _ hp
  omega

/-- Main specification of `Heapify sz fuel s n` (with `fuel ≥ sz - n`, as at
every call site): it permutes only heap entries at positions inside the
subtree of `n` that lie below `sz`, and if the heap order held everywhere in
that subtree except possibly between `n` and its children, it holds in the
whole subtree afterwards (except at the pair above `n`, which is outside). -/
theorem Scheduler.Heapify_main (sz : Nat) (fuel : Nat) : ∀ (s : Scheduler) (n : Nat),
    sz - n ≤ fuel →
    (∀ i, i < sz → 0 < i → Scheduler.desc n i = true → i ≠ n → (i - 1) / 2 ≠ n →
      s.timestamp (s.heap ((i - 1) / 2)) ≤ s.timestamp (s.heap i)) →
    ((∀ i, ¬ (Scheduler.desc n i = true ∧ i < sz) →
        (Scheduler.Heapify sz fuel s n).heap i = s.heap i) ∧
     (∀ i, Scheduler.desc n i = true → i < sz →
        ∃ j, Scheduler.desc n j = true ∧ j < sz ∧
          (Scheduler.Heapify sz fuel s n).heap i = s.heap j) ∧
     (∀ i, i < sz → 0 < i → Scheduler.desc n i = true → i ≠ n →
        s.timestamp ((Scheduler.Heapify sz fuel s n).heap ((i - 1) / 2)) ≤
          s.timestamp ((Scheduler.Heapify sz fuel s n).heap i))) := by
  induction fuel with
  | zero =>
    intro s n hfuel L1
    refine ⟨fun i _ => rfl, fun i hd hi => ⟨i, hd, hi, rfl⟩, fun i hi _ hd _ => ?_⟩
    have := Scheduler.desc_le n i hd
    omega
  | succ f ih =>
    intro s n hfuel L1
    have dLn : Scheduler.desc n (2 * n + 1) = true :=
      Scheduler.desc_child_left n n (Scheduler.desc_refl n)
    have dRn : Scheduler.desc n (2 * n + 2) = true :=
      Scheduler.desc_child_right n n (Scheduler.desc_refl n)
    have ndLR : ¬ Scheduler.desc (2 * n + 1) (2 * n + 2) = true :=
      Scheduler.desc_not_left_right n
    have ndRL : ¬ Scheduler.desc (2 * n + 2) (2 * n + 1) = true := by
      intro h; have := Scheduler.desc_le _ _ h; omega
    have ndLn : ¬ Scheduler.desc (2 * n + 1) n = true := by
      intro h; have := Scheduler.desc_le _ _ h; omega
    have ndRn : ¬ Scheduler.desc (2 * n + 2) n = true := by
      intro h; have := Scheduler.desc_le _ _ h; omega
    unfold Scheduler.Heapify
    dsimp only
    by_cases hl : 2 * n + 1 < sz ∧ s.timestamp (s.heap (2 * n + 1)) < s.timestamp (s.heap n)
    · rw [if_pos hl]
      have hnsz : n < sz := by omega
      -- the state after the first recursive call
      have L1A : ∀ i, i < sz → 0 < i → Scheduler.desc (2 * n + 1) i = true →
          i ≠ 2 * n + 1 → (i - 1) / 2 ≠ 2 * n + 1 →
          (s.Swap (2 * n + 1) n).timestamp ((s.Swap (2 * n + 1) n).heap ((i - 1) / 2)) ≤
            (s.Swap (2 * n + 1) n).timestamp ((s.Swap (2 * n + 1) n).heap i) := by
        intro i hi hi0 hdi hine hipar
        have hile := Scheduler.desc_le _ _ hdi
        have hpard : Scheduler.desc (2 * n + 1) ((i - 1) / 2) = true :=
          (Scheduler.desc_step _ _ hdi hine).2
        have hparle := Scheduler.desc_le _ _ hpard
        rw [Scheduler.Swap_timestamp,
          Scheduler.Swap_heap_of_ne s (2 * n + 1) n i (by omega) (by omega),
          Scheduler.Swap_heap_of_ne s (2 * n + 1) n ((i - 1) / 2) (by omega) hipar]
        exact L1 i hi hi0 (Scheduler.desc_trans n (2 * n + 1) dLn i hdi) (by omega) (by omega)
      obtain ⟨loc1, prov1, A1⟩ :=
        ih (s.Swap (2 * n + 1) n) (2 * n + 1) (by omega) L1A
      have ets1 : (Scheduler.Heapify sz f (s.Swap (2 * n + 1) n) (2 * n + 1)).timestamp
          = s.timestamp :=
        (Scheduler.Heapify_fields sz f (s.Swap (2 * n + 1) n) (2 * n + 1)).1
      -- values the first call leaves at n and at 2n+2
      have s1n : (Scheduler.Heapify sz f (s.Swap (2 * n + 1) n) (2 * n + 1)).heap n
          = s.heap (2 * n + 1) := by
        rw [loc1 n (by intro hc; exact ndLn hc.1), Scheduler.Swap_heap_left]
      have s1r : (Scheduler.Heapify sz f (s.Swap (2 * n + 1) n) (2 * n + 1)).heap (2 * n + 2)
          = s.heap (2 * n + 2) := by
        rw [loc1 (2 * n + 2) (by intro hc; exact ndLR hc.1),
          Scheduler.Swap_heap_of_ne s (2 * n + 1) n (2 * n + 2) (by omega) (by omega)]
      -- a chain bound inside the left subtree of the original state
      have chainL : ∀ y, Scheduler.desc (2 * n + 1) y = true → y < sz →
          s.timestamp (s.heap (2 * n + 1)) ≤ s.timestamp (s.heap y) := by
        refine Scheduler.chain_le s sz (2 * n + 1) ?_
        intro i hi hi0 hdi hine
        have hpard : Scheduler.desc (2 * n + 1) ((i - 1) / 2) = true :=
          (Scheduler.desc_step _ _ hdi hine).2
        have := Scheduler.desc_le _ _ hdi
        have := Scheduler.desc_le _ _ hpard
        exact L1 i hi hi0 (Scheduler.desc_trans n (2 * n + 1) dLn i hdi) (by omega) (by omega)
      -- provenance of the value sitting at 2n+1 after the first call
      have prov1l := prov1 (2 * n + 1) (Scheduler.desc_refl _) (by omega)
      split
      · next hr0 =>
        -- second swap and recursive call happen
        have hr : 2 * n + 2 < sz ∧
            s.timestamp ((Scheduler.Heapify sz f (s.Swap (2 * n + 1) n) (2 * n + 1)).heap
              (2 * n + 2)) <
            s.timestamp ((Scheduler.Heapify sz f (s.Swap (2 * n + 1) n) (2 * n + 1)).heap n) := by
          rcases hr0 with ⟨h1, h2⟩
          rw [ets1] at h2
          exact ⟨h1, h2⟩
        have hrlt : s.timestamp (s.heap (2 * n + 2)) < s.timestamp (s.heap (2 * n + 1)) := by
          have := hr.2
          rw [s1n, s1r] at this
          exact this
        have L1B : ∀ i, i < sz → 0 < i → Scheduler.desc (2 * n + 2) i = true →
            i ≠ 2 * n + 2 → (i - 1) / 2 ≠ 2 * n + 2 →
            ((Scheduler.Heapify sz f (s.Swap (2 * n + 1) n) (2 * n + 1)).Swap (2 * n + 2)
                n).timestamp
              (((Scheduler.Heapify sz f (s.Swap (2 * n + 1) n) (2 * n + 1)).Swap (2 * n + 2)
                n).heap ((i - 1) / 2)) ≤
            ((Scheduler.Heapify sz f (s.Swap (2 * n + 1) n) (2 * n + 1)).Swap (2 * n + 2)
                n).timestamp
              (((Scheduler.Heapify sz f (s.Swap (2 * n + 1) n) (2 * n + 1)).Swap (2 * n + 2)
                n).heap i) := by
          intro i hi hi0 hdi hine hipar
          have hile := Scheduler.desc_le _ _ hdi
          have hpard : Scheduler.desc (2 * n + 2) ((i - 1) / 2) = true :=
            (Scheduler.desc_step _ _ hdi hine).2
          have hparle := Scheduler.desc_le _ _ hpard
          rw [Scheduler.Swap_timestamp, ets1,
            Scheduler.Swap_heap_of_ne _ (2 * n + 2) n i (by omega) (by omega),
            Scheduler.Swap_heap_of_ne _ (2 * n + 2) n ((i - 1) / 2) (by omega) hipar,
            loc1 i (fun hc => Scheduler.desc_sibling_disj n i hc.1 hdi),
            loc1 ((i - 1) / 2) (fun hc => Scheduler.desc_sibling_disj n _ hc.1 hpard),
            Scheduler.Swap_heap_of_ne s (2 * n + 1) n i (by omega) (by omega),
            Scheduler.Swap_heap_of_ne s (2 * n + 1) n ((i - 1) / 2) (by omega) (by omega)]
          exact L1 i hi hi0 (Scheduler.desc_trans n (2 * n + 2) dRn i hdi) (by omega) (by omega)
        obtain ⟨loc2, prov2, A2⟩ :=
          ih ((Scheduler.Heapify sz f (s.Swap (2 * n + 1) n) (2 * n + 1)).Swap (2 * n + 2) n)
            (2 * n + 2) (by omega) L1B
        -- simplify timestamps in A2
        have chainR : ∀ y, Scheduler.desc (2 * n + 2) y = true → y < sz →
            s.timestamp (s.heap (2 * n + 2)) ≤ s.timestamp (s.heap y) := by
          refine Scheduler.chain_le s sz (2 * n + 2) ?_
          intro i hi hi0 hdi hine
          have hpard : Scheduler.desc (2 * n + 2) ((i - 1) / 2) = true :=
            (Scheduler.desc_step _ _ hdi hine).2
          have := Scheduler.desc_le _ _ hdi
          have := Scheduler.desc_le _ _ hpard
          exact L1 i hi hi0 (Scheduler.desc_trans n (2 * n + 2) dRn i hdi) (by omega) (by omega)
        -- describe values at every position of the final state
        have valB : ∀ i, Scheduler.desc (2 * n + 2) i = true → i < sz →
            ∃ j, Scheduler.desc n j = true ∧ j < sz ∧
              (Scheduler.Heapify sz f
                ((Scheduler.Heapify sz f (s.Swap (2 * n + 1) n) (2 * n + 1)).Swap (2 * n + 2) n)
                (2 * n + 2)).heap i = s.heap j ∧
              s.timestamp (s.heap (2 * n + 2)) ≤ s.timestamp (s.heap j) := by
          intro i hdi hi
          obtain ⟨j2, hdj2, hj2sz, e2⟩ := prov2 i hdi hi
          by_cases hj2r : j2 = 2 * n + 2
          · refine ⟨2 * n + 1, dLn, by omega, ?_, Nat.le_of_lt hrlt⟩
            rw [e2, hj2r, Scheduler.Swap_heap_right, s1n]
          · have hj2le := Scheduler.desc_le _ _ hdj2
            refine ⟨j2, Scheduler.desc_trans n (2 * n + 2) dRn j2 hdj2, hj2sz, ?_, ?_⟩
            · rw [e2, Scheduler.Swap_heap_of_ne _ (2 * n + 2) n j2 (by omega) hj2r,
                loc1 j2 (fun hc => Scheduler.desc_sibling_disj n j2 hc.1 hdj2),
                Scheduler.Swap_heap_of_ne s (2 * n + 1) n j2 (by omega) (by omega)]
            · exact chainR j2 hdj2 hj2sz
        have valL : ∀ i, Scheduler.desc (2 * n + 1) i = true → i < sz →
            ∃ j, Scheduler.desc n j = true ∧ j < sz ∧
              (Scheduler.Heapify sz f
                ((Scheduler.Heapify sz f (s.Swap (2 * n + 1) n) (2 * n + 1)).Swap (2 * n + 2) n)
                (2 * n + 2)).heap i =
                (Scheduler.Heapify sz f (s.Swap (2 * n + 1) n) (2 * n + 1)).heap i ∧
              (Scheduler.Heapify sz f (s.Swap (2 * n + 1) n) (2 * n + 1)).heap i = s.heap j ∧
              s.timestamp (s.heap (2 * n + 1)) ≤ s.timestamp (s.heap j) := by
          intro i hdi hi
          have hile := Scheduler.desc_le _ _ hdi
          have eB : (Scheduler.Heapify sz f
              ((Scheduler.Heapify sz f (s.Swap (2 * n + 1) n) (2 * n + 1)).Swap (2 * n + 2) n)
              (2 * n + 2)).heap i =
              (Scheduler.Heapify sz f (s.Swap (2 * n + 1) n) (2 * n + 1)).heap i := by
            rw [loc2 i (fun hc => Scheduler.desc_sibling_disj n i hdi hc.1),
              Scheduler.Swap_heap_of_ne _ (2 * n + 2) n i (by omega)
                (fun hc => ndLR (by rw [← hc]; exact hdi))]
          obtain ⟨j1, hdj1, hj1sz, e1⟩ := prov1 i hdi hi
          by_cases hj1l : j1 = 2 * n + 1
          · refine ⟨n, Scheduler.desc_refl n, hnsz, eB, ?_, Nat.le_of_lt hl.2⟩
            rw [e1, hj1l, Scheduler.Swap_heap_right]
          · have hj1le := Scheduler.desc_le _ _ hdj1
            refine ⟨j1, Scheduler.desc_trans n (2 * n + 1) dLn j1 hdj1, hj1sz, eB, ?_, ?_⟩
            · rw [e1, Scheduler.Swap_heap_of_ne s (2 * n + 1) n j1 (by omega) hj1l]
            · exact chainL j1 hdj1 hj1sz
        have valn : (Scheduler.Heapify sz f
            ((Scheduler.Heapify sz f (s.Swap (2 * n + 1) n) (2 * n + 1)).Swap (2 * n + 2) n)
            (2 * n + 2)).heap n = s.heap (2 * n + 2) := by
          rw [loc2 n (fun hc => ndRn hc.1), Scheduler.Swap_heap_left, s1r]
        refine ⟨?_, ?_, ?_⟩
        · -- locality
          intro i hni
          by_cases hd : Scheduler.desc n i = true
          · have hisz : ¬ i < sz := fun hc => hni ⟨hd, hc⟩
            have hin : i ≠ n := fun hc => hisz (hc ▸ hnsz)
            have hiL : i ≠ 2 * n + 1 := fun hc => hisz (by omega)
            have hiR : i ≠ 2 * n + 2 := fun hc => hisz (by omega)
            rw [loc2 i (fun hc => hisz hc.2),
              Scheduler.Swap_heap_of_ne _ (2 * n + 2) n i hin hiR,
              loc1 i (fun hc => hisz hc.2),
              Scheduler.Swap_heap_of_ne s (2 * n + 1) n i hin hiL]
          · have hin : i ≠ n := fun hc => hd (hc ▸ Scheduler.desc_refl n)
            have hiL : i ≠ 2 * n + 1 := fun hc => hd (hc ▸ dLn)
            have hiR : i ≠ 2 * n + 2 := fun hc => hd (hc ▸ dRn)
            have hdL : ¬ Scheduler.desc (2 * n + 1) i = true :=
              fun hc => hd (Scheduler.desc_trans n (2 * n + 1) dLn i hc)
            have hdR : ¬ Scheduler.desc (2 * n + 2) i = true :=
              fun hc => hd (Scheduler.desc_trans n (2 * n + 2) dRn i hc)
            rw [loc2 i (fun hc => hdR hc.1),
              Scheduler.Swap_heap_of_ne _ (2 * n + 2) n i hin hiR,
              loc1 i (fun hc => hdL hc.1),
              Scheduler.Swap_heap_of_ne s (2 * n + 1) n i hin hiL]
        · -- provenance
          intro i hd hi
          rcases Scheduler.desc_split n i hd with hin | hdL | hdR
          · exact ⟨2 * n + 2, dRn, hr.1, by rw [hin]; exact valn⟩
          · obtain ⟨j, hdj, hjsz, eB, e1, _⟩ := valL i hdL hi
            exact ⟨j, hdj, hjsz, by rw [eB]; exact e1⟩
          · obtain ⟨j, hdj, hjsz, e, _⟩ := valB i hdR hi
            exact ⟨j, hdj, hjsz, e⟩
        · -- heap order inside the subtree of n
          intro i hi hi0 hd hine
          by_cases hiL : i = 2 * n + 1
          · have hq : (i - 1) / 2 = n := by omega
            rw [hq, hiL, valn]
            obtain ⟨j, hdj, hjsz, eB, e1, hbound⟩ :=
              valL (2 * n + 1) (Scheduler.desc_refl _) (by omega)
            rw [eB, e1]
            exact le_trans (Nat.le_of_lt hrlt) hbound
          · by_cases hiR : i = 2 * n + 2
            · have hq : (i - 1) / 2 = n := by omega
              rw [hq, hiR, valn]
              obtain ⟨j, hdj, hjsz, e, hbound⟩ :=
                valB (2 * n + 2) (Scheduler.desc_refl _) (by omega)
              rw [e]
              exact hbound
            · rcases Scheduler.desc_split n i hd with h' | hdL' | hdR'
              · exact absurd h' hine
              · -- strictly inside the left subtree
                have hqd : Scheduler.desc (2 * n + 1) ((i - 1) / 2) = true :=
                  (Scheduler.desc_step _ _ hdL' hiL).2
                have hile := Scheduler.desc_le _ _ hdL'
                have hqle := Scheduler.desc_le _ _ hqd
                obtain ⟨ji, _, _, eBi, _, _⟩ := valL i hdL' hi
                obtain ⟨jq, _, _, eBq, _, _⟩ := valL ((i - 1) / 2) hqd (by omega)
                rw [eBi, eBq]
                have := A1 i hi hi0 hdL' hiL
                rw [Scheduler.Swap_timestamp] at this
                exact this
              · -- strictly inside the right subtree
                have := A2 i hi hi0 hdR' hiR
                rw [Scheduler.Swap_timestamp, ets1] at this
                exact this
      · next hr0 =>
        -- no second swap
        have hrneg : ¬ (2 * n + 2 < sz ∧
            s.timestamp (s.heap (2 * n + 2)) < s.timestamp (s.heap (2 * n + 1))) := by
          intro hc
          apply hr0
          refine ⟨hc.1, ?_⟩
          rw [ets1, s1n, s1r]
          exact hc.2
        refine ⟨?_, ?_, ?_⟩
        · -- locality
          intro i hni
          by_cases hd : Scheduler.desc n i = true
          · have hisz : ¬ i < sz := fun hc => hni ⟨hd, hc⟩
            have hin : i ≠ n := fun hc => hisz (hc ▸ hnsz)
            have hiL : i ≠ 2 * n + 1 := fun hc => hisz (by omega)
            rw [loc1 i (fun hc => hisz hc.2),
              Scheduler.Swap_heap_of_ne s (2 * n + 1) n i hin hiL]
          · have hin : i ≠ n := fun hc => hd (hc ▸ Scheduler.desc_refl n)
            have hiL : i ≠ 2 * n + 1 := fun hc => hd (hc ▸ dLn)
            have hdL : ¬ Scheduler.desc (2 * n + 1) i = true :=
              fun hc => hd (Scheduler.desc_trans n (2 * n + 1) dLn i hc)
            rw [loc1 i (fun hc => hdL hc.1),
              Scheduler.Swap_heap_of_ne s (2 * n + 1) n i hin hiL]
        · -- provenance
          intro i hd hi
          rcases Scheduler.desc_split n i hd with hin | hdL | hdR
          · refine ⟨2 * n + 1, dLn, by omega, ?_⟩
            rw [hin, s1n]
          · obtain ⟨j1, hdj1, hj1sz, e1⟩ := prov1 i hdL hi
            by_cases hj1l : j1 = 2 * n + 1
            · refine ⟨n, Scheduler.desc_refl n, hnsz, ?_⟩
              rw [e1, hj1l, Scheduler.Swap_heap_right]
            · have := Scheduler.desc_le _ _ hdj1
              refine ⟨j1, Scheduler.desc_trans n (2 * n + 1) dLn j1 hdj1, hj1sz, ?_⟩
              rw [e1, Scheduler.Swap_heap_of_ne s (2 * n + 1) n j1 (by omega) hj1l]
          · have hile := Scheduler.desc_le _ _ hdR
            refine ⟨i, hd, hi, ?_⟩
            rw [loc1 i (fun hc => Scheduler.desc_sibling_disj n i hc.1 hdR),
              Scheduler.Swap_heap_of_ne s (2 * n + 1) n i (by omega) (by omega)]
        · -- heap order
          intro i hi hi0 hd hine
          by_cases hiL : i = 2 * n + 1
          · have hq : (i - 1) / 2 = n := by omega
            rw [hq, hiL, s1n]
            obtain ⟨j1, hdj1, hj1sz, e1⟩ := prov1 (2 * n + 1) (Scheduler.desc_refl _) (by omega)
            rw [e1]
            by_cases hj1l : j1 = 2 * n + 1
            · rw [hj1l, Scheduler.Swap_heap_right]
              exact Nat.le_of_lt hl.2
            · have := Scheduler.desc_le _ _ hdj1
              rw [Scheduler.Swap_heap_of_ne s (2 * n + 1) n j1 (by omega) hj1l]
              exact chainL j1 hdj1 hj1sz
          · by_cases hiR : i = 2 * n + 2
            · have hq : (i - 1) / 2 = n := by omega
              have hrsz : 2 * n + 2 < sz := by omega
              rw [hq, hiR, s1n, s1r]
              rcases Nat.lt_or_ge (s.timestamp (s.heap (2 * n + 2)))
                (s.timestamp (s.heap (2 * n + 1))) with hlt | hge
              · exact absurd ⟨hrsz, hlt⟩ hrneg
              · exact hge
            · rcases Scheduler.desc_split n i hd with h' | hdL' | hdR'
              · exact absurd h' hine
              · have := A1 i hi hi0 hdL' hiL
                rw [Scheduler.Swap_timestamp] at this
                exact this
              · -- inside the right subtree: nothing moved there
                have hqd : Scheduler.desc (2 * n + 2) ((i - 1) / 2) = true :=
                  (Scheduler.desc_step _ _ hdR' hiR).2
                have hile := Scheduler.desc_le _ _ hdR'
                have hqle := Scheduler.desc_le _ _ hqd
                rw [loc1 i (fun hc => Scheduler.desc_sibling_disj n i hc.1 hdR'),
                  loc1 ((i - 1) / 2)
                    (fun hc => Scheduler.desc_sibling_disj n _ hc.1 hqd),
                  Scheduler.Swap_heap_of_ne s (2 * n + 1) n i (by omega) (by omega),
                  Scheduler.Swap_heap_of_ne s (2 * n + 1) n ((i - 1) / 2) (by omega) (by omega)]
                exact L1 i hi hi0 hd (by omega) (by omega)
    · rw [if_neg hl]
      split
      · next hr0 =>
        -- only the right swap and recursive call happen
        have hrsz : 2 * n + 2 < sz := hr0.1
        have hnsz : n < sz := by omega
        have hrlt : s.timestamp (s.heap (2 * n + 2)) < s.timestamp (s.heap n) := hr0.2
        have L1B : ∀ i, i < sz → 0 < i → Scheduler.desc (2 * n + 2) i = true →
            i ≠ 2 * n + 2 → (i - 1) / 2 ≠ 2 * n + 2 →
            (s.Swap (2 * n + 2) n).timestamp ((s.Swap (2 * n + 2) n).heap ((i - 1) / 2)) ≤
              (s.Swap (2 * n + 2) n).timestamp ((s.Swap (2 * n + 2) n).heap i) := by
          intro i hi hi0 hdi hine hipar
          have hile := Scheduler.desc_le _ _ hdi
          have hpard : Scheduler.desc (2 * n + 2) ((i - 1) / 2) = true :=
            (Scheduler.desc_step _ _ hdi hine).2
          have hparle := Scheduler.desc_le _ _ hpard
          rw [Scheduler.Swap_timestamp,
            Scheduler.Swap_heap_of_ne s (2 * n + 2) n i (by omega) (by omega),
            Scheduler.Swap_heap_of_ne s (2 * n + 2) n ((i - 1) / 2) (by omega) hipar]
          exact L1 i hi hi0 (Scheduler.desc_trans n (2 * n + 2) dRn i hdi) (by omega) (by omega)
        obtain ⟨loc2, prov2, A2⟩ := ih (s.Swap (2 * n + 2) n) (2 * n + 2) (by omega) L1B
        have chainR : ∀ y, Scheduler.desc (2 * n + 2) y = true → y < sz →
            s.timestamp (s.heap (2 * n + 2)) ≤ s.timestamp (s.heap y) := by
          refine Scheduler.chain_le s sz (2 * n + 2) ?_
          intro i hi hi0 hdi hine
          have hpard : Scheduler.desc (2 * n + 2) ((i - 1) / 2) = true :=
            (Scheduler.desc_step _ _ hdi hine).2
          have := Scheduler.desc_le _ _ hdi
          have := Scheduler.desc_le _ _ hpard
          exact L1 i hi hi0 (Scheduler.desc_trans n (2 * n + 2) dRn i hdi) (by omega) (by omega)
        have valn : (Scheduler.Heapify sz f (s.Swap (2 * n + 2) n) (2 * n + 2)).heap n
            = s.heap (2 * n + 2) := by
          rw [loc2 n (fun hc => ndRn hc.1), Scheduler.Swap_heap_left]
        have valB : ∀ i, Scheduler.desc (2 * n + 2) i = true → i < sz →
            ∃ j, Scheduler.desc n j = true ∧ j < sz ∧
              (Scheduler.Heapify sz f (s.Swap (2 * n + 2) n) (2 * n + 2)).heap i = s.heap j ∧
              s.timestamp (s.heap (2 * n + 2)) ≤ s.timestamp (s.heap j) := by
          intro i hdi hi
          obtain ⟨j2, hdj2, hj2sz, e2⟩ := prov2 i hdi hi
          by_cases hj2r : j2 = 2 * n + 2
          · refine ⟨n, Scheduler.desc_refl n, hnsz, ?_, Nat.le_of_lt hrlt⟩
            rw [e2, hj2r, Scheduler.Swap_heap_right]
          · have hj2le := Scheduler.desc_le _ _ hdj2
            refine ⟨j2, Scheduler.desc_trans n (2 * n + 2) dRn j2 hdj2, hj2sz, ?_,
              chainR j2 hdj2 hj2sz⟩
            rw [e2, Scheduler.Swap_heap_of_ne s (2 * n + 2) n j2 (by omega) hj2r]
        refine ⟨?_, ?_, ?_⟩
        · intro i hni
          by_cases hd : Scheduler.desc n i = true
          · have hisz : ¬ i < sz := fun hc => hni ⟨hd, hc⟩
            have hin : i ≠ n := fun hc => hisz (hc ▸ hnsz)
            have hiR : i ≠ 2 * n + 2 := fun hc => hisz (by omega)
            rw [loc2 i (fun hc => hisz hc.2),
              Scheduler.Swap_heap_of_ne s (2 * n + 2) n i hin hiR]
          · have hin : i ≠ n := fun hc => hd (hc ▸ Scheduler.desc_refl n)
            have hiR : i ≠ 2 * n + 2 := fun hc => hd (hc ▸ dRn)
            have hdR : ¬ Scheduler.desc (2 * n + 2) i = true :=
              fun hc => hd (Scheduler.desc_trans n (2 * n + 2) dRn i hc)
            rw [loc2 i (fun hc => hdR hc.1),
              Scheduler.Swap_heap_of_ne s (2 * n + 2) n i hin hiR]
        · intro i hd hi
          rcases Scheduler.desc_split n i hd with hin | hdL | hdR
          · exact ⟨2 * n + 2, dRn, hrsz, by rw [hin]; exact valn⟩
          · have hile := Scheduler.desc_le _ _ hdL
            refine ⟨i, hd, hi, ?_⟩
            rw [loc2 i (fun hc => Scheduler.desc_sibling_disj n i hdL hc.1),
              Scheduler.Swap_heap_of_ne s (2 * n + 2) n i (by omega)
                (fun hc => ndLR (by rw [← hc]; exact hdL))]
          · obtain ⟨j, hdj, hjsz, e, _⟩ := valB i hdR hi
            exact ⟨j, hdj, hjsz, e⟩
        · intro i hi hi0 hd hine
          by_cases hiL : i = 2 * n + 1
          · have hq : (i - 1) / 2 = n := by omega
            have hLsz : 2 * n + 1 < sz := by omega
            have hLval : (Scheduler.Heapify sz f (s.Swap (2 * n + 2) n) (2 * n + 2)).heap
                (2 * n + 1) = s.heap (2 * n + 1) := by
              rw [loc2 (2 * n + 1) (fun hc => ndRL hc.1),
                Scheduler.Swap_heap_of_ne s (2 * n + 2) n (2 * n + 1) (by omega) (by omega)]
            rw [hq, hiL, valn, hLval]
            have hnl : ¬ s.timestamp (s.heap (2 * n + 1)) < s.timestamp (s.heap n) :=
              fun hc => hl ⟨hLsz, hc⟩
            omega
          · by_cases hiR : i = 2 * n + 2
            · have hq : (i - 1) / 2 = n := by omega
              rw [hq, hiR, valn]
              obtain ⟨j, hdj, hjsz, e, hbound⟩ :=
                valB (2 * n + 2) (Scheduler.desc_refl _) hrsz
              rw [e]
              exact hbound
            · rcases Scheduler.desc_split n i hd with h' | hdL' | hdR'
              · exact absurd h' hine
              · -- inside the left subtree: nothing moved there
                have hqd : Scheduler.desc (2 * n + 1) ((i - 1) / 2) = true :=
                  (Scheduler.desc_step _ _ hdL' hiL).2
                have hile := Scheduler.desc_le _ _ hdL'
                have hqle := Scheduler.desc_le _ _ hqd
                rw [loc2 i (fun hc => Scheduler.desc_sibling_disj n i hdL' hc.1),
                  loc2 ((i - 1) / 2)
                    (fun hc => Scheduler.desc_sibling_disj n _ hqd hc.1),
                  Scheduler.Swap_heap_of_ne s (2 * n + 2) n i (by omega)
                    (fun hc => ndLR (by rw [← hc]; exact hdL')),
                  Scheduler.Swap_heap_of_ne s (2 * n + 2) n ((i - 1) / 2) (by omega)
                    (fun hc => ndLR (by rw [← hc]; exact hqd))]
                exact L1 i hi hi0 hd (by omega) (by omega)
              · have := A2 i hi hi0 hdR' hiR
                rw [Scheduler.Swap_timestamp] at this
                exact this
      · next hr0 =>
        -- neither branch fires: the state is unchanged
        refine ⟨fun i _ => rfl, fun i hd hi => ⟨i, hd, hi, rfl⟩, ?_⟩
        intro i hi hi0 hd hine
        by_cases hiL : i = 2 * n + 1
        · have hq : (i - 1) / 2 = n := by omega
          rw [hq, hiL]
          have : ¬ s.timestamp (s.heap (2 * n + 1)) < s.timestamp (s.heap n) :=
            fun hc => hl ⟨by omega, hc⟩
          omega
        · by_cases hiR : i = 2 * n + 2
          · have hq : (i - 1) / 2 = n := by omega
            rw [hq, hiR]
            have : ¬ s.timestamp (s.heap (2 * n + 2)) < s.timestamp (s.heap n) :=
              fun hc => hr0 ⟨by omega, hc⟩
            omega
          · rcases Scheduler.desc_split n i hd with h' | hdL' | hdR'
            · exact absurd h' hine
            · exact L1 i hi hi0 hd hine
                (by have := Scheduler.desc_le _ _ (Scheduler.desc_step _ _ hdL' hiL).2; omega)
            · exact L1 i hi hi0 hd hine
                (by have := Scheduler.desc_le _ _ (Scheduler.desc_step _ _ hdR' hiR).2; omega)

/-! ### Specification of `Remove` (and hence `Cancel`) -/

theorem Scheduler.Remove_spec (s : Scheduler) (n : Nat) (hInv : s.Inv) (hn : n < s.heap_size) :
    (s.Remove n).Inv ∧
    (s.Remove n).heap_size = s.heap_size - 1 ∧
    (s.Remove n).timestamp = s.timestamp ∧
    (s.Remove n).callback = s.callback ∧
    (s.Remove n).timestamp_now = s.timestamp_now ∧
    (s.Remove n).pendL.Perm (s.pendL.erase (s.heap n)) := by
  obtain ⟨hs64, hinv, hprop⟩ := hInv
  obtain ⟨hts, hcb, hhs, hnow⟩ := Scheduler.Remove_fields s n
  have hprj : ({ s with heap_size := s.heap_size - 1 } : Scheduler).heap_size
      = s.heap_size - 1 := rfl
  have hprjts : ({ s with heap_size := s.heap_size - 1 } : Scheduler).timestamp
      = s.timestamp := rfl
  have chainAll : ∀ x y, Scheduler.desc x y = true → y < s.heap_size →
      s.timestamp (s.heap x) ≤ s.timestamp (s.heap y) :=
    fun x => Scheduler.chain_le s s.heap_size x (fun i hi hi0 _ _ => hprop i hi hi0)
  have hRhinv : (s.Remove n).HandleInv :=
    Scheduler.Remove_HandleInv s n hs64 (by omega) hinv
  have hRnodup : (s.Remove n).pendL.Nodup :=
    Scheduler.pendL_nodup (s.Remove n) (by omega) hRhinv
  have hsnodup : s.pendL.Nodup := Scheduler.pendL_nodup s hs64 hinv
  -- facts about the intermediate swapped state
  have hvaln : (Scheduler.Swap { s with heap_size := s.heap_size - 1 } n
      (s.heap_size - 1)).heap n = s.heap (s.heap_size - 1) :=
    Scheduler.Swap_heap_right _ n (s.heap_size - 1)
  have hval : ∀ k, k ≠ n → k ≠ s.heap_size - 1 →
      (Scheduler.Swap { s with heap_size := s.heap_size - 1 } n
        (s.heap_size - 1)).heap k = s.heap k :=
    fun k h2 h1 => Scheduler.Swap_heap_of_ne _ n (s.heap_size - 1) k h1 h2
  have hmem2 : ∀ x, x ∈ (Scheduler.Swap { s with heap_size := s.heap_size - 1 } n
      (s.heap_size - 1)).pendL ↔ x ∈ s.pendL.erase (s.heap n) := by
    intro x
    rw [Scheduler.mem_pendL, List.Nodup.mem_erase_iff hsnodup, Scheduler.mem_pendL]
    rw [Scheduler.Swap_heap_size, hprj]
    constructor
    · rintro ⟨k, hk, he⟩
      by_cases hkn : k = n
      · subst hkn
        rw [hvaln] at he
        refine ⟨?_, s.heap_size - 1, by omega, he⟩
        rw [← he]
        intro hc
        have := Scheduler.heap_inj s hinv (s.heap_size - 1) k (by omega) (by omega) hc
        omega
      · rw [hval k hkn (by omega)] at he
        refine ⟨?_, k, by omega, he⟩
        rw [← he]
        intro hc
        have := Scheduler.heap_inj s hinv k n (by omega) (by omega) hc
        omega
    · rintro ⟨hne, k, hk, he⟩
      have hkn : k ≠ n := by
        intro hc
        subst hc
        exact hne he.symm
      by_cases hkm : k = s.heap_size - 1
      · refine ⟨n, by omega, ?_⟩
        rw [hvaln, ← hkm]
        exact he
      · exact ⟨k, by omega, by rw [hval k hkn hkm]; exact he⟩
  -- now split on the two rebalancing branches of Remove
  unfold Scheduler.Remove
  dsimp only
  split
  · next hg =>
    obtain ⟨hn0, hgt⟩ := hg
    -- the moved element undercut its parent, so n was not the last slot
    have hnm : n < s.heap_size - 1 := by
      rcases Nat.lt_or_ge n (s.heap_size - 1) with h | h
      · exact h
      · exfalso
        have hem : n = s.heap_size - 1 := by omega
        have e1 : (Scheduler.Swap { s with heap_size := s.heap_size - 1 } n
            (s.heap_size - 1)).heap n = s.heap n := by
          rw [hvaln, hem]
        have e2 : (Scheduler.Swap { s with heap_size := s.heap_size - 1 } n
            (s.heap_size - 1)).heap ((n - 1) / 2) = s.heap ((n - 1) / 2) := by
          rw [hval ((n - 1) / 2) (by omega) (by omega)]
        rw [Scheduler.Swap_timestamp, hprjts, e1, e2] at hgt
        have := hprop n hn (by omega)
        omega
    have hdpn : Scheduler.desc ((n - 1) / 2) n = true := by
      rcases (by omega : n = 2 * ((n - 1) / 2) + 1 ∨ n = 2 * ((n - 1) / 2) + 2) with e | e
      · have h := Scheduler.desc_child_left ((n - 1) / 2) ((n - 1) / 2)
          (Scheduler.desc_refl ((n - 1) / 2))
        rw [← e] at h
        exact h
      · have h := Scheduler.desc_child_right ((n - 1) / 2) ((n - 1) / 2)
          (Scheduler.desc_refl ((n - 1) / 2))
        rw [← e] at h
        exact h
    have hup : (Scheduler.Swap { s with heap_size := s.heap_size - 1 } n
        (s.heap_size - 1)).UpInv (s.heap_size - 1) n := by
      constructor
      · intro i hi hi0 hine
        rw [Scheduler.Swap_timestamp, hprjts,
          hval i hine (by omega)]
        by_cases hpar : (i - 1) / 2 = n
        · rw [hpar, hvaln]
          rw [Scheduler.Swap_timestamp, hprjts, hvaln,
            hval ((n - 1) / 2) (by omega) (by omega)] at hgt
          have hdi : Scheduler.desc ((n - 1) / 2) i = true := by
            have : i = 2 * n + 1 ∨ i = 2 * n + 2 := by omega
            rcases this with e | e
            · rw [e]; exact Scheduler.desc_child_left _ _ hdpn
            · rw [e]; exact Scheduler.desc_child_right _ _ hdpn
          exact le_trans (Nat.le_of_lt hgt) (chainAll ((n - 1) / 2) i hdi (by omega))
        · rw [hval ((i - 1) / 2) hpar (by omega)]
          exact hprop i (by omega) hi0
      · intro j hj hjp hjne hn0'
        rw [Scheduler.Swap_timestamp, hprjts,
          hval ((n - 1) / 2) (by omega) (by omega),
          hval j hjne (by omega)]
        have hdj : Scheduler.desc ((n - 1) / 2) j = true := by
          have : j = 2 * n + 1 ∨ j = 2 * n + 2 := by omega
          rcases this with e | e
          · rw [e]; exact Scheduler.desc_child_left _ _ hdpn
          · rw [e]; exact Scheduler.desc_child_right _ _ hdpn
        exact chainAll ((n - 1) / 2) j hdj (by omega)
    have hHP : (Scheduler.siftUp n (Scheduler.Swap { s with heap_size := s.heap_size - 1 } n
        (s.heap_size - 1)) n).HProp (s.heap_size - 1) :=
      Scheduler.siftUp_HProp n _ n (s.heap_size - 1) hnm (le_refl n) hup
    have hmem1 := Scheduler.siftUp_mem_pendL n
      (Scheduler.Swap { s with heap_size := s.heap_size - 1 } n (s.heap_size - 1)) n
      (by rw [Scheduler.Swap_heap_size]; exact hnm)
    refine ⟨⟨?_, ?_, ?_⟩, ?_, ?_, ?_, ?_, ?_⟩
    · rw [(Scheduler.siftUp_fields n _ n).2.2.1, Scheduler.Swap_heap_size, hprj]
      omega
    · exact Scheduler.siftUp_HandleInv n _ n (by omega)
        (Scheduler.Swap_HandleInv _ n (s.heap_size - 1) (by omega) (by omega) hinv)
    · rw [(Scheduler.siftUp_fields n _ n).2.2.1, Scheduler.Swap_heap_size, hprj]
      exact hHP
    · rw [(Scheduler.siftUp_fields n _ n).2.2.1, Scheduler.Swap_heap_size, hprj]
    · exact (Scheduler.siftUp_fields n _ n).1
    · exact (Scheduler.siftUp_fields n _ n).2.1
    · exact (Scheduler.siftUp_fields n _ n).2.2.2
    · refine perm_nodup_ext ?_ (hsnodup.erase _) ?_
      · refine Scheduler.pendL_nodup _ ?_ ?_
        · rw [(Scheduler.siftUp_fields n _ n).2.2.1, Scheduler.Swap_heap_size, hprj]
          omega
        · exact Scheduler.siftUp_HandleInv n _ n (by omega)
            (Scheduler.Swap_HandleInv _ n (s.heap_size - 1) (by omega) (by omega) hinv)
      · intro x
        rw [hmem1 x]
        exact hmem2 x
  · next hg =>
    have hL1 : ∀ i, i < s.heap_size - 1 → 0 < i → Scheduler.desc n i = true → i ≠ n →
        (i - 1) / 2 ≠ n →
        (Scheduler.Swap { s with heap_size := s.heap_size - 1 } n
          (s.heap_size - 1)).timestamp
          ((Scheduler.Swap { s with heap_size := s.heap_size - 1 } n
            (s.heap_size - 1)).heap ((i - 1) / 2)) ≤
        (Scheduler.Swap { s with heap_size := s.heap_size - 1 } n
          (s.heap_size - 1)).timestamp
          ((Scheduler.Swap { s with heap_size := s.heap_size - 1 } n
            (s.heap_size - 1)).heap i) := by
      intro i hi hi0 hd hine hipar
      rw [Scheduler.Swap_timestamp, hprjts, hval i hine (by omega),
        hval ((i - 1) / 2) hipar (by omega)]
      exact hprop i (by omega) hi0
    obtain ⟨loc, prov, A⟩ := Scheduler.Heapify_main (s.heap_size - 1) (s.heap_size - 1)
      (Scheduler.Swap { s with heap_size := s.heap_size - 1 } n (s.heap_size - 1)) n
      (by omega) hL1
    have ets : (Scheduler.Heapify (s.heap_size - 1) (s.heap_size - 1)
        (Scheduler.Swap { s with heap_size := s.heap_size - 1 } n (s.heap_size - 1)) n).timestamp
        = s.timestamp :=
      (Scheduler.Heapify_fields (s.heap_size - 1) (s.heap_size - 1) _ n).1
    have hHP : (Scheduler.Heapify (s.heap_size - 1) (s.heap_size - 1)
        (Scheduler.Swap { s with heap_size := s.heap_size - 1 } n (s.heap_size - 1)) n).HProp
        (s.heap_size - 1) := by
      intro i hi hi0
      rw [Scheduler.HProp] at *
      rw [ets]
      by_cases hd : Scheduler.desc n i = true
      · by_cases hin : i = n
        · -- the pair just above n
          have hn0 : n ≠ 0 := by omega
          have hnm : n < s.heap_size - 1 := by omega
          have hpn : ¬ (Scheduler.desc n ((i - 1) / 2) = true ∧
              (i - 1) / 2 < s.heap_size - 1) :=
            fun hc => Scheduler.desc_false_of_lt n ((i - 1) / 2) (by omega) hc.1
          rw [loc ((i - 1) / 2) hpn, hval ((i - 1) / 2) (by omega) (by omega), hin]
          obtain ⟨j, hdj, hjsz, e⟩ := prov n (Scheduler.desc_refl n) hnm
          rw [e]
          have hgle : s.timestamp (s.heap ((n - 1) / 2)) ≤
              s.timestamp (s.heap (s.heap_size - 1)) := by
            have h1 : ¬ (Scheduler.Swap { s with heap_size := s.heap_size - 1 } n
                (s.heap_size - 1)).timestamp
                ((Scheduler.Swap { s with heap_size := s.heap_size - 1 } n
                  (s.heap_size - 1)).heap ((n - 1) / 2)) >
                (Scheduler.Swap { s with heap_size := s.heap_size - 1 } n
                  (s.heap_size - 1)).timestamp
                ((Scheduler.Swap { s with heap_size := s.heap_size - 1 } n
                  (s.heap_size - 1)).heap n) := fun hc => hg ⟨hn0, hc⟩
            rw [Scheduler.Swap_timestamp, hprjts, hvaln,
              hval ((n - 1) / 2) (by omega) (by omega)] at h1
            omega
          by_cases hjn : j = n
          · rw [hjn, hvaln]
            exact hgle
          · rw [hval j hjn (by omega)]
            have hdpn2 : Scheduler.desc ((n - 1) / 2) n = true := by
              rcases (by omega : n = 2 * ((n - 1) / 2) + 1 ∨ n = 2 * ((n - 1) / 2) + 2)
                with e' | e'
              · have h := Scheduler.desc_child_left ((n - 1) / 2) ((n - 1) / 2)
                  (Scheduler.desc_refl ((n - 1) / 2))
                rw [← e'] at h
                exact h
              · have h := Scheduler.desc_child_right ((n - 1) / 2) ((n - 1) / 2)
                  (Scheduler.desc_refl ((n - 1) / 2))
                rw [← e'] at h
                exact h
            exact chainAll ((n - 1) / 2) j
              (Scheduler.desc_trans _ n hdpn2 j hdj) (by omega)
        · exact A i hi hi0 hd hin
      · have hqd : ¬ Scheduler.desc n ((i - 1) / 2) = true := by
          intro hc
          apply hd
          rcases (by omega : i = 2 * ((i - 1) / 2) + 1 ∨ i = 2 * ((i - 1) / 2) + 2) with e | e
          · rw [e]; exact Scheduler.desc_child_left _ _ hc
          · rw [e]; exact Scheduler.desc_child_right _ _ hc
        have hinn : i ≠ n := fun hc => hd (hc ▸ Scheduler.desc_refl n)
        have hqnn : (i - 1) / 2 ≠ n := fun hc => hqd (hc ▸ Scheduler.desc_refl n)
        rw [loc i (fun hc => hd hc.1), loc ((i - 1) / 2) (fun hc => hqd hc.1),
          hval i hinn (by omega), hval ((i - 1) / 2) hqnn (by omega)]
        exact hprop i (by omega) hi0
    have hmem1 := Scheduler.Heapify_mem_pendL (s.heap_size - 1) (s.heap_size - 1)
      (Scheduler.Swap { s with heap_size := s.heap_size - 1 } n (s.heap_size - 1)) n
      (by rw [Scheduler.Swap_heap_size])
    refine ⟨⟨?_, ?_, ?_⟩, ?_, ?_, ?_, ?_, ?_⟩
    · rw [(Scheduler.Heapify_fields _ _ _ n).2.2.1, Scheduler.Swap_heap_size, hprj]
      omega
    · exact Scheduler.Heapify_HandleInv (s.heap_size - 1) (by omega) (s.heap_size - 1) _ n
        (Scheduler.Swap_HandleInv _ n (s.heap_size - 1) (by omega) (by omega) hinv)
    · rw [(Scheduler.Heapify_fields _ _ _ n).2.2.1, Scheduler.Swap_heap_size, hprj]
      exact hHP
    · rw [(Scheduler.Heapify_fields _ _ _ n).2.2.1, Scheduler.Swap_heap_size, hprj]
    · exact (Scheduler.Heapify_fields _ _ _ n).1
    · exact (Scheduler.Heapify_fields _ _ _ n).2.1
    · exact (Scheduler.Heapify_fields _ _ _ n).2.2.2
    · refine perm_nodup_ext ?_ (hsnodup.erase _) ?_
      · refine Scheduler.pendL_nodup _ ?_ ?_
        · rw [(Scheduler.Heapify_fields _ _ _ n).2.2.1, Scheduler.Swap_heap_size, hprj]
          omega
        · exact Scheduler.Heapify_HandleInv (s.heap_size - 1) (by omega) (s.heap_size - 1) _ n
            (Scheduler.Swap_HandleInv _ n (s.heap_size - 1) (by omega) (by omega) hinv)
      · intro x
        rw [hmem1 x]
        exact hmem2 x

/-! ### Specification of `Add` -/

theorem Scheduler.Add_spec (s : Scheduler) (delay cb : Nat) (hInv : s.Inv)
    (hroom : s.heap_size < 64) : (s.Add delay cb).1.Inv ∧
    (s.Add delay cb).1.heap_size = s.heap_size + 1 := by
  obtain ⟨hs64, hinv, hprop⟩ := hInv
  unfold Scheduler.Add
  dsimp only
  refine ⟨⟨?_, ?_, ?_⟩, ?_⟩
  · rw [(Scheduler.siftUp_fields s.heap_size _ s.heap_size).2.2.1]
    show s.heap_size + 1 ≤ 64
    omega
  · exact Scheduler.siftUp_HandleInv s.heap_size _ s.heap_size (by omega) hinv
  · rw [(Scheduler.siftUp_fields s.heap_size _ s.heap_size).2.2.1]
    have hup : Scheduler.UpInv
        { s with
          heap_size := s.heap_size + 1
          timestamp := Function.update s.timestamp (s.heap s.heap_size)
            ((s.timestamp_now + delay) % U64)
          callback := Function.update s.callback (s.heap s.heap_size) cb }
        (s.heap_size + 1) s.heap_size := by
      constructor
      · intro i hi hi0 hine
        have hi' : i < s.heap_size := by omega
        have hp' : (i - 1) / 2 < s.heap_size := by omega
        have h1 : s.heap i ≠ s.heap s.heap_size := fun hc =>
          hine (Scheduler.heap_inj s hinv i s.heap_size (by omega) (by omega) hc)
        have h2 : s.heap ((i - 1) / 2) ≠ s.heap s.heap_size := fun hc =>
          (by omega : (i - 1) / 2 ≠ s.heap_size)
            (Scheduler.heap_inj s hinv ((i - 1) / 2) s.heap_size (by omega) (by omega) hc)
        show Function.update s.timestamp (s.heap s.heap_size) _ (s.heap ((i - 1) / 2)) ≤
          Function.update s.timestamp (s.heap s.heap_size) _ (s.heap i)
        rw [Function.update_noteq h1, Function.update_noteq h2]
        exact hprop i hi' hi0
      · intro j hj hjp hjne hn0
        omega
    have hhp := Scheduler.siftUp_HProp s.heap_size _ s.heap_size (s.heap_size + 1)
      (by omega) (le_refl _) hup
    exact hhp
  · rw [(Scheduler.siftUp_fields s.heap_size _ s.heap_size).2.2.1]

/-! ### Specification of the drain loop -/

theorem Scheduler.StepGo_spec (fuel : Nat) : ∀ (s : Scheduler) (t : Nat),
    s.Inv → s.heap_size ≤ fuel →
    ((Scheduler.StepGo t fuel s).1.Inv ∧
     (Scheduler.StepGo t fuel s).1.timestamp = s.timestamp ∧
     (Scheduler.StepGo t fuel s).1.callback = s.callback ∧
     ((Scheduler.StepGo t fuel s).2.map (fun x => x.1)).Perm
       (s.pendL.filter (fun e => decide (s.timestamp e ≤ t))) ∧
     (Scheduler.StepGo t fuel s).1.pendL.Perm
       (s.pendL.filter (fun e => decide (¬ s.timestamp e ≤ t))) ∧
     (∀ x ∈ (Scheduler.StepGo t fuel s).2,
       x.2.1 = s.callback x.1 ∧ x.2.2 = s.timestamp x.1) ∧
     List.Pairwise (fun x y => x.2.2 ≤ y.2.2) (Scheduler.StepGo t fuel s).2) := by
  induction fuel with
  | zero =>
    intro s t hInv hfuel
    have hpnil : s.pendL = [] := by
      unfold Scheduler.pendL
      have : s.heap_size = 0 := by omega
      rw [this]
      rfl
    unfold Scheduler.StepGo
    rw [hpnil]
    exact ⟨hInv, rfl, rfl, by simp, by simp [hpnil], by simp, by simp⟩
  | succ f ih =>
    intro s t hInv hfuel
    obtain ⟨hs64, hinv, hprop⟩ := hInv
    unfold Scheduler.StepGo
    dsimp only
    split
    · next hg =>
      obtain ⟨hts0, hhs0⟩ := hg
      have e0 : ({ s with timestamp_now := s.timestamp (s.heap 0) } : Scheduler).handle
          (s.heap 0) = 0 := hinv 0 (by omega)
      rw [e0]
      have hInv1 : ({ s with timestamp_now := s.timestamp (s.heap 0) } : Scheduler).Inv :=
        ⟨hs64, hinv, hprop⟩
      obtain ⟨hInv2, hhs2, hts2, hcb2, _, hpend2⟩ :=
        Scheduler.Remove_spec { s with timestamp_now := s.timestamp (s.heap 0) } 0 hInv1
          (by show 0 < s.heap_size; omega)
      have hpend2' : ({ s with timestamp_now := s.timestamp (s.heap 0) } : Scheduler).Remove
          0 |>.pendL.Perm (s.pendL.erase (s.heap 0)) := hpend2
      obtain ⟨ih1, ih2, ih3, ih4, ih5, ih6, ih7⟩ :=
        ih (({ s with timestamp_now := s.timestamp (s.heap 0) } : Scheduler).Remove 0) t hInv2
          (by rw [hhs2]; show s.heap_size - 1 ≤ f; omega)
      have htseq : (({ s with timestamp_now := s.timestamp (s.heap 0) } : Scheduler).Remove
          0).timestamp = s.timestamp := hts2
      have hcbeq : (({ s with timestamp_now := s.timestamp (s.heap 0) } : Scheduler).Remove
          0).callback = s.callback := hcb2
      rw [htseq] at ih4 ih5 ih6
      rw [hcbeq] at ih6
      have hmem0 : s.heap 0 ∈ s.pendL := (Scheduler.mem_pendL s _).mpr ⟨0, hhs0, rfl⟩
      have hperm0 : s.pendL.Perm (s.heap 0 :: s.pendL.erase (s.heap 0)) :=
        List.perm_cons_erase hmem0
      have hrootmin : ∀ x ∈ s.pendL, s.timestamp (s.heap 0) ≤ s.timestamp x := by
        intro x hx
        obtain ⟨i, hi, he⟩ := (Scheduler.mem_pendL s x).mp hx
        rw [← he]
        exact Scheduler.root_min s s.heap_size hprop i hi
      refine ⟨ih1, ih2.trans hts2, ih3.trans hcb2, ?_, ?_, ?_, ?_⟩
      · -- fired ids are exactly the due pending events
        refine List.Perm.trans ?_ (List.Perm.filter _ hperm0.symm)
        rw [List.filter_cons_of_pos (by simpa using hts0)]
        refine List.Perm.cons _ ?_
        exact List.Perm.trans ih4 (List.Perm.filter _ (hpend2'.trans (List.Perm.refl _)))
      · -- surviving events are exactly the rest
        refine List.Perm.trans ?_ (List.Perm.filter _ hperm0.symm)
        rw [List.filter_cons_of_neg (by simpa using hts0)]
        exact List.Perm.trans ih5 (List.Perm.filter _ hpend2')
      · intro x hx
        rcases List.mem_cons.mp hx with he | hm
        · rw [he]
          exact ⟨rfl, rfl⟩
        · exact ih6 x hm
      · refine List.Pairwise.cons ?_ ih7
        intro y hy
        have hid : y.1 ∈ (Scheduler.StepGo t f
            (({ s with timestamp_now := s.timestamp (s.heap 0) } : Scheduler).Remove 0)).2.map
            (fun x => x.1) := List.mem_map_of_mem _ hy
        have hid2 := (ih4.mem_iff).mp hid
        have hid3 : y.1 ∈ s.pendL.erase (s.heap 0) :=
          (hpend2'.mem_iff).mp (List.mem_of_mem_filter hid2)
        have hid4 : y.1 ∈ s.pendL := List.mem_of_mem_erase hid3
        have := (ih6 y hy).2
        rw [this]
        exact hrootmin y.1 hid4
    · next hg =>
      have hfall : ∀ x ∈ s.pendL, ¬ s.timestamp x ≤ t := by
        intro x hx hle
        apply hg
        constructor
        · obtain ⟨i, hi, he⟩ := (Scheduler.mem_pendL s x).mp hx
          have h1 := Scheduler.root_min s s.heap_size hprop i hi
          rw [he] at h1
          omega
        · obtain ⟨i, hi, _⟩ := (Scheduler.mem_pendL s x).mp hx
          omega
      refine ⟨⟨hs64, hinv, hprop⟩, rfl, rfl, ?_, ?_, by simp, by simp⟩
      · have : s.pendL.filter (fun e => decide (s.timestamp e ≤ t)) = [] := by
          rw [List.filter_eq_nil]
          intro a ha
          simpa using hfall a ha
        rw [this]
        rfl
      · have : s.pendL.filter (fun e => decide (¬ s.timestamp e ≤ t)) = s.pendL := by
          rw [List.filter_eq_self]
          intro a ha
          simpa using hfall a ha
        rw [this]

/-! ### The reachable-state invariant -/

theorem Scheduler.Reach_Inv : ∀ s, Scheduler.Reach s → s.Inv := by
  intro s h
  induction h with
  | new => decide
  | add s d cb _ hroom ih => exact (Scheduler.Add_spec s d cb ih hroom).1
  | cancel s e _ hmem ih =>
    obtain ⟨i, hi, he⟩ := (Scheduler.mem_pendL s e).mp hmem
    have hh : s.handle e = i := by
      rw [← he]
      exact ih.2.1 i (by have := ih.1; omega)
    exact (Scheduler.Remove_spec s (s.handle e) ih (by rw [hh]; exact hi)).1
  | addCycles s c _ ih =>
    exact (Scheduler.StepGo_spec s.heap_size s ((s.timestamp_now + c) % U64) ih (le_refl _)).1

/-! ### Claims about the scheduler -/

/-- C1: for every non-negative cycle count `c` (with the deadline not
wrapping 64-bit arithmetic), `AddCycles c` fires the callback of exactly the
pending events whose timestamp is at most `timestamp_now + c` (each logged
with its slot, callback and timestamp), in non-decreasing timestamp order,
and afterwards `timestamp_now` holds the new deadline `timestamp_now + c`. -/
theorem claim_C1_addCycles_drains_due_events (s : Scheduler) (c : Nat)
    (h1 : s.Inv) (h2 : s.timestamp_now + c < U64) :
    (s.AddCycles c).1.timestamp_now = s.timestamp_now + c ∧
    List.Pairwise (fun x y => x.2.2 ≤ y.2.2) (s.AddCycles c).2 ∧
    ((s.AddCycles c).2.map (fun x => x.1)).Perm
      (s.pendL.filter (fun e => decide (s.timestamp e ≤ s.timestamp_now + c))) ∧
    (∀ x ∈ (s.AddCycles c).2, x.2.1 = s.callback x.1 ∧ x.2.2 = s.timestamp x.1) := by
  have hmod : (s.timestamp_now + c) % U64 = s.timestamp_now + c := Nat.mod_eq_of_lt h2
  have hspec := Scheduler.StepGo_spec s.heap_size s ((s.timestamp_now + c) % U64) h1 (le_refl _)
  refine ⟨?_, ?_, ?_, ?_⟩
  · show (s.timestamp_now + c) % U64 = _
    exact hmod
  · exact hspec.2.2.2.2.2.2
  · have e1 : s.pendL.filter (fun e => decide (s.timestamp e ≤ (s.timestamp_now + c) % U64))
        = s.pendL.filter (fun e => decide (s.timestamp e ≤ s.timestamp_now + c)) := by
      rw [hmod]
    rw [← e1]
    exact hspec.2.2.2.1
  · exact hspec.2.2.2.2.2.1

theorem claim_C1_witness :
    Scheduler.Inv Scheduler.ex538 ∧ Scheduler.ex538.timestamp_now + 10 < U64 ∧
    ((Scheduler.ex538.AddCycles 10).1.timestamp_now = Scheduler.ex538.timestamp_now + 10 ∧
     List.Pairwise (fun x y => x.2.2 ≤ y.2.2) (Scheduler.ex538.AddCycles 10).2 ∧
     ((Scheduler.ex538.AddCycles 10).2.map (fun x => x.1)).Perm
       (Scheduler.ex538.pendL.filter
         (fun e => decide (Scheduler.ex538.timestamp e ≤ Scheduler.ex538.timestamp_now + 10))) ∧
     (∀ x ∈ (Scheduler.ex538.AddCycles 10).2,
       x.2.1 = Scheduler.ex538.callback x.1 ∧ x.2.2 = Scheduler.ex538.timestamp x.1)) :=
  ⟨by decide, by decide,
    claim_C1_addCycles_drains_due_events Scheduler.ex538 10 (by decide) (by decide)⟩

/-- C2: after any sequence of `Add` (performed while fewer than 64 events are
pending) and `Cancel` calls (of pending events) — and also across `AddCycles`
— the heap array satisfies the min-heap property: each node's timestamp is at
most either child's. -/
theorem claim_C2_min_heap_property (s : Scheduler) (h : Scheduler.Reach s) :
    ∀ i j, i < s.heap_size → j < s.heap_size → (j = 2 * i + 1 ∨ j = 2 * i + 2) →
      s.timestamp (s.heap i) ≤ s.timestamp (s.heap j) := by
  intro i j hi hj hij
  have hp := (Scheduler.Reach_Inv s h).2.2
  have hq : (j - 1) / 2 = i := by omega
  have := hp j hj (by omega)
  rw [hq] at this
  exact this

theorem claim_C2_witness :
    Scheduler.Reach Scheduler.exC2 ∧
    (∀ i j, i < Scheduler.exC2.heap_size → j < Scheduler.exC2.heap_size →
      (j = 2 * i + 1 ∨ j = 2 * i + 2) →
      Scheduler.exC2.timestamp (Scheduler.exC2.heap i) ≤
        Scheduler.exC2.timestamp (Scheduler.exC2.heap j)) := by
  have hr : Scheduler.Reach Scheduler.exC2 :=
    Scheduler.Reach.cancel _ _
      (Scheduler.Reach.add _ 3 2
        (Scheduler.Reach.add _ 5 1 Scheduler.Reach.new (by decide)) (by decide))
      (by decide)
  exact ⟨hr, claim_C2_min_heap_property Scheduler.exC2 hr⟩

/-- C5: the capacity assertion in `Add` (checked after `heap_size` is
incremented) fires exactly when `Add` is entered with 64 events already
pending (the sentinel from `Reset` counts towards the 64); whenever `Add` is
entered with at most 63 pending events — as in any call sequence that keeps
the pending count at or below 64 — the assertion cannot fire. -/
theorem claim_C5_capacity_assertion :
    (∀ (s : Scheduler) (delay cb : Nat), s.heap_size = 64 →
      (s.Add delay cb).2.2 = true) ∧
    (∀ (s : Scheduler) (delay cb : Nat), s.heap_size ≤ 63 →
      (s.Add delay cb).2.2 = false) := by
  constructor
  · intro s d cb h
    show decide (Scheduler.kMaxEvents < s.heap_size + 1) = true
    rw [h]
    decide
  · intro s d cb h
    show decide (Scheduler.kMaxEvents < s.heap_size + 1) = false
    simp only [decide_eq_false_iff_not, Scheduler.kMaxEvents]
    omega

theorem claim_C5_witness :
    Scheduler.full64.heap_size = 64 ∧ (Scheduler.full64.Add 1 0).2.2 = true ∧
    Scheduler.new.heap_size ≤ 63 ∧ (Scheduler.new.Add 1 0).2.2 = false :=
  ⟨rfl, claim_C5_capacity_assertion.1 Scheduler.full64 1 0 rfl, by decide,
    claim_C5_capacity_assertion.2 Scheduler.new 1 0 (by decide)⟩

/-- C9: the index-tracking invariant `heap[i]->handle == i` holds for every
slot index `i < 64` after construction and after every `Add`, `Cancel` and
`AddCycles` call, which is what lets `Cancel e` locate `e` in the heap
without a linear scan. -/
theorem claim_C9_handle_tracking (s : Scheduler) (h : Scheduler.Reach s) :
    ∀ i, i < 64 → s.handle (s.heap i) = i :=
  fun i hi => (Scheduler.Reach_Inv s h).2.1 i hi

theorem claim_C9_witness :
    Scheduler.Reach Scheduler.exC9 ∧
    (∀ i, i < 64 → Scheduler.exC9.handle (Scheduler.exC9.heap i) = i) := by
  have hr : Scheduler.Reach Scheduler.exC9 :=
    Scheduler.Reach.addCycles _ 3
      (Scheduler.Reach.add _ 20 5 Scheduler.Reach.new (by decide))
  exact ⟨hr, claim_C9_handle_tracking Scheduler.exC9 hr⟩

/-- C6: once `Cancel e` returns for a pending event `e`, no subsequent
`AddCycles c` (with a non-wrapping deadline) ever invokes `e`'s callback,
while every other pending event whose timestamp is due still fires with its
own callback at its scheduled timestamp. -/
theorem claim_C6_cancel_is_complete (s : Scheduler) (e c : Nat)
    (h1 : s.Inv) (h2 : e ∈ s.pendL) (h3 : s.timestamp_now + c < U64) :
    (∀ x ∈ ((s.Cancel e).AddCycles c).2, x.1 ≠ e) ∧
    (∀ x, x ∈ s.pendL → x ≠ e → s.timestamp x ≤ s.timestamp_now + c →
      (x, s.callback x, s.timestamp x) ∈ ((s.Cancel e).AddCycles c).2) := by
  obtain ⟨i, hi, he⟩ := (Scheduler.mem_pendL s e).mp h2
  have hh : s.handle e = i := by
    rw [← he]
    exact h1.2.1 i (by have := h1.1; omega)
  obtain ⟨hInvR, hhsR, htsR, hcbR, hnowR, hpendR⟩ :=
    Scheduler.Remove_spec s (s.handle e) h1 (by rw [hh]; exact hi)
  have hInvC : (s.Cancel e).Inv := hInvR
  have htsC : (s.Cancel e).timestamp = s.timestamp := htsR
  have hcbC : (s.Cancel e).callback = s.callback := hcbR
  have hnowC : (s.Cancel e).timestamp_now = s.timestamp_now := hnowR
  have hpendC : (s.Cancel e).pendL.Perm (s.pendL.erase e) := by
    have h5 : s.heap (s.handle e) = e := by rw [hh]; exact he
    have h6 := hpendR
    rw [h5] at h6
    exact h6
  have hsnodup : s.pendL.Nodup := Scheduler.pendL_nodup s h1.1 h1.2.1
  have hdead : ((s.Cancel e).timestamp_now + c) % U64 = s.timestamp_now + c := by
    rw [hnowC]
    exact Nat.mod_eq_of_lt h3
  have hspec := Scheduler.StepGo_spec (s.Cancel e).heap_size (s.Cancel e)
    (((s.Cancel e).timestamp_now + c) % U64) hInvC (le_refl _)
  have hlog := hspec.2.2.2.1
  have hentry := hspec.2.2.2.2.2.1
  rw [htsC] at hlog hentry
  rw [hcbC] at hentry
  constructor
  · intro x hx
    have hid : x.1 ∈ ((s.Cancel e).AddCycles c).2.map (fun y => y.1) :=
      List.mem_map_of_mem _ hx
    have hid2 := (hlog.mem_iff).mp hid
    have hid3 : x.1 ∈ (s.Cancel e).pendL := List.mem_of_mem_filter hid2
    have hid4 : x.1 ∈ s.pendL.erase e := (hpendC.mem_iff).mp hid3
    exact ((List.Nodup.mem_erase_iff hsnodup).mp hid4).1
  · intro x hx hxe hxdue
    have hx1 : x ∈ s.pendL.erase e := (List.mem_erase_of_ne hxe).mpr hx
    have hx2 : x ∈ (s.Cancel e).pendL := (hpendC.mem_iff).mpr hx1
    have hx3 : x ∈ (s.Cancel e).pendL.filter
        (fun y => decide (s.timestamp y ≤ ((s.Cancel e).timestamp_now + c) % U64)) := by
      refine List.mem_filter.mpr ⟨hx2, ?_⟩
      rw [hdead]
      simpa using hxdue
    have hx4 : x ∈ ((s.Cancel e).AddCycles c).2.map (fun y => y.1) :=
      (hlog.mem_iff).mpr hx3
    obtain ⟨y, hy, hy1⟩ := List.mem_map.mp hx4
    have hy2 := hentry y hy
    have hyform : y = (x, s.callback x, s.timestamp x) := by
      obtain ⟨y1, y2, y3⟩ := y
      simp only at hy1 hy2
      rw [hy1] at hy2 ⊢
      rw [hy2.1, hy2.2]
    rw [← hyform]
    exact hy

theorem claim_C6_witness :
    Scheduler.Inv Scheduler.exCancel ∧
    (Scheduler.new.Add 100 7).2.1 ∈ Scheduler.exCancel.pendL ∧
    Scheduler.exCancel.timestamp_now + 200 < U64 ∧
    ((∀ x ∈ ((Scheduler.exCancel.Cancel (Scheduler.new.Add 100 7).2.1).AddCycles 200).2,
        x.1 ≠ (Scheduler.new.Add 100 7).2.1) ∧
     (∀ x, x ∈ Scheduler.exCancel.pendL → x ≠ (Scheduler.new.Add 100 7).2.1 →
        Scheduler.exCancel.timestamp x ≤ Scheduler.exCancel.timestamp_now + 200 →
        (x, Scheduler.exCancel.callback x, Scheduler.exCancel.timestamp x) ∈
          ((Scheduler.exCancel.Cancel (Scheduler.new.Add 100 7).2.1).AddCycles 200).2)) :=
  ⟨by decide, by decide, by decide,
    claim_C6_cancel_is_complete Scheduler.exCancel (Scheduler.new.Add 100 7).2.1 200
      (by decide) (by decide) (by decide)⟩

/-! ### Address-mask arithmetic -/

theorem and_two_mul_general (a M : Nat) : a &&& (2 * M) = 2 * ((a / 2) &&& M) := by
  have h1 := Nat.div_add_mod (a &&& (2 * M)) 2
  have h2 : (a &&& (2 * M)) / 2 = a / 2 &&& M := by
    rw [Nat.and_div_two]
    congr 1
    omega
  have h3 : (a &&& (2 * M)) % 2 = 0 := by
    rcases Nat.mod_two_eq_zero_or_one (a &&& (2 * M)) with h | h
    · exact h
    · exfalso
      have := (Nat.and_mod_two_eq_one.mp h).2
      omega
  omega

theorem and_mask_3FF (a : Nat) : a &&& 0x3FF = a % 0x400 := by
  have h := Nat.and_pow_two_sub_one_eq_mod a 10
  norm_num at h
  exact h

theorem and_mask_1FFFF (a : Nat) : a &&& 0x1FFFF = a % 0x20000 := by
  have h := Nat.and_pow_two_sub_one_eq_mod a 17
  norm_num at h
  exact h

theorem and_mask_3FE (a : Nat) : a &&& 0x3FE = 2 * (a / 2 % 0x200) := by
  have h : (0x3FE : Nat) = 2 * 0x1FF := by norm_num
  rw [h, and_two_mul_general]
  congr 1
  have h2 := Nat.and_pow_two_sub_one_eq_mod (a / 2) 9
  norm_num at h2
  exact h2

theorem and_mask_FFFFFFFE (a : Nat) : a &&& 0xFFFFFFFE = 2 * (a / 2 % 0x80000000) := by
  have h : (0xFFFFFFFE : Nat) = 2 * 0x7FFFFFFF := by norm_num
  rw [h, and_two_mul_general]
  congr 1
  have h2 := Nat.and_pow_two_sub_one_eq_mod (a / 2) 31
  norm_num at h2
  exact h2

theorem mirror_mask_aux : ∀ h, h < 0x80 → ∀ lo, lo < 0x100 →
    (0x18000 + 0x100 * h + lo) &&& 0xFFFF7FFF = 0x10000 + 0x100 * h + lo := by decide

theorem mirror_mask (m : Nat) (h1 : 0x18000 ≤ m) (h2 : m < 0x20000) :
    m &&& 0xFFFF7FFF = m - 0x8000 := by
  obtain ⟨x, y, hx, hy, hm⟩ : ∃ x y, x < 0x80 ∧ y < 0x100 ∧ m = 0x18000 + 0x100 * x + y :=
    ⟨(m - 0x18000) / 0x100, (m - 0x18000) % 0x100, by omega, by omega, by omega⟩
  subst hm
  rw [mirror_mask_aux x hx y hy]
  omega

/-! ### Facts about the raw little-endian accessors -/

theorem writeLE_out : ∀ (w : Nat) (mem : Nat → Nat) (off v k : Nat),
    k < off ∨ off + w ≤ k → writeLE w mem off v k = mem k := by
  intro w
  induction w with
  | zero => intro mem off v k _; rfl
  | succ w ih =>
    intro mem off v k hk
    show writeLE w (Function.update mem off (v % 256)) (off + 1) (v / 256) k = mem k
    rw [ih _ (off + 1) _ k (by omega)]
    exact Function.update_noteq (by omega) _ _

theorem readLE_congr : ∀ (w : Nat) (mem mem' : Nat → Nat) (off : Nat),
    (∀ k, off ≤ k → k < off + w → mem k = mem' k) →
    readLE w mem off = readLE w mem' off := by
  intro w
  induction w with
  | zero => intro mem mem' off _; rfl
  | succ w ih =>
    intro mem mem' off h
    show mem off + 256 * readLE w mem (off + 1) = mem' off + 256 * readLE w mem' (off + 1)
    rw [h off (le_refl _) (by omega), ih mem mem' (off + 1) (fun k hk1 hk2 => h k (by omega) (by omega))]

theorem writeLE_two (mem : Nat → Nat) (off v : Nat) :
    writeLE 2 mem off v =
      Function.update (Function.update mem off (v % 256)) (off + 1) (v / 256 % 256) := rfl

theorem readLE_one (mem : Nat → Nat) (off : Nat) : readLE 1 mem off = mem off := by
  show mem off + 256 * 0 = mem off
  omega

/-! ### Claims about the PPU memory accessors -/

/-- C7: an 8-bit palette write stores the byte into both bytes of the 16-bit
word at `address & 0x3FE` (never a true single-byte write), so an 8-bit read
of either byte of that word returns the written value; all other palette
bytes are untouched. -/
theorem claim_C7_pram_byte_write_replicates (p : PPU) (a v : Nat) (hv : v < 256) :
    ((p.WritePRAM 1 a v).pram (a &&& 0x3FE) = v ∧
     (p.WritePRAM 1 a v).pram ((a &&& 0x3FE) + 1) = v) ∧
    (∀ b, b &&& 0x3FF = a &&& 0x3FE → PPU.ReadPRAM 1 (p.WritePRAM 1 a v) b = v) ∧
    (∀ b, b &&& 0x3FF = (a &&& 0x3FE) + 1 → PPU.ReadPRAM 1 (p.WritePRAM 1 a v) b = v) ∧
    (∀ k, k ≠ a &&& 0x3FE → k ≠ (a &&& 0x3FE) + 1 → (p.WritePRAM 1 a v).pram k = p.pram k) := by
  have hv256 : v % 256 = v := Nat.mod_eq_of_lt hv
  have hpr : (p.WritePRAM 1 a v).pram =
      writeLE 2 p.pram (a &&& 0x3FE) (v % 256 * 0x0101) := by
    unfold PPU.WritePRAM
    rw [if_pos rfl]
    rfl
  have h1 : writeLE 2 p.pram (a &&& 0x3FE) (v % 256 * 0x0101) (a &&& 0x3FE) = v := by
    rw [writeLE_two, Function.update_noteq (by omega), Function.update_same, hv256]
    omega
  have hdiv : v * 257 / 256 = v := by omega
  have h2 : writeLE 2 p.pram (a &&& 0x3FE) (v % 256 * 0x0101) ((a &&& 0x3FE) + 1) = v := by
    rw [writeLE_two, Function.update_same, hv256]
    show v * 257 / 256 % 256 = v
    rw [hdiv, hv256]
  refine ⟨⟨by rw [hpr]; exact h1, by rw [hpr]; exact h2⟩, ?_, ?_, ?_⟩
  · intro b hb
    unfold PPU.ReadPRAM
    rw [readLE_one, hb, hpr]
    exact h1
  · intro b hb
    unfold PPU.ReadPRAM
    rw [readLE_one, hb, hpr]
    exact h2
  · intro k hk1 hk2
    rw [hpr, writeLE_two, Function.update_noteq hk2, Function.update_noteq hk1]

theorem claim_C7_witness :
    (0x7E : Nat) < 256 ∧
    (((PPU.zeroed.WritePRAM 1 0x123 0x7E).pram (0x123 &&& 0x3FE) = 0x7E ∧
      (PPU.zeroed.WritePRAM 1 0x123 0x7E).pram ((0x123 &&& 0x3FE) + 1) = 0x7E) ∧
     (∀ b, b &&& 0x3FF = 0x123 &&& 0x3FE →
       PPU.ReadPRAM 1 (PPU.zeroed.WritePRAM 1 0x123 0x7E) b = 0x7E) ∧
     (∀ b, b &&& 0x3FF = (0x123 &&& 0x3FE) + 1 →
       PPU.ReadPRAM 1 (PPU.zeroed.WritePRAM 1 0x123 0x7E) b = 0x7E) ∧
     (∀ k, k ≠ 0x123 &&& 0x3FE → k ≠ (0x123 &&& 0x3FE) + 1 →
       (PPU.zeroed.WritePRAM 1 0x123 0x7E).pram k = PPU.zeroed.pram k)) :=
  ⟨by decide, claim_C7_pram_byte_write_replicates PPU.zeroed 0x123 0x7E (by decide)⟩

/-- C8: an 8-bit write to object-attribute memory is discarded entirely — the
PPU state is unchanged, so every subsequent read at any width and address
returns what it returned before — while 16-bit and 32-bit writes do modify
that memory. -/
theorem claim_C8_oam_byte_writes_ignored :
    (∀ (p : PPU) (a v : Nat), p.WriteOAM 1 a v = p) ∧
    (∀ (p : PPU) (a v w b : Nat), PPU.ReadOAM w (p.WriteOAM 1 a v) b = PPU.ReadOAM w p b) ∧
    (PPU.zeroed.WriteOAM 2 0 0xABCD).oam 0 = 0xCD ∧
    (PPU.zeroed.WriteOAM 4 0 0xDDCCBBAA).oam 3 = 0xDD :=
  ⟨fun _ _ _ => rfl, fun _ _ _ _ _ => rfl, by decide, by decide⟩

/-- C3 (amended): every `WritePRAM` and `WriteVRAM` call, at every width,
invokes `Sync()` exactly once, and the call happens after the new value
(when not discarded) has been stored into the backing memory; `WriteOAM`
never invokes `Sync()` at any width.  This is witnessed by the exact effect
traces of the accessors. -/
theorem claim_C3_amended_sync_after_store :
    (∀ (p : PPU) (a v : Nat),
      (p.WritePRAM 1 a v).trace =
        p.trace ++ [Ev.store Region.pram (a &&& 0x3FE) 2, Ev.sync]) ∧
    (∀ (p : PPU) (a v w : Nat), w ≠ 1 →
      (p.WritePRAM w a v).trace =
        p.trace ++ [Ev.store Region.pram (a &&& 0x3FF) w, Ev.sync]) ∧
    (∀ (p : PPU) (a v : Nat),
      (p.WriteVRAM 1 a v).trace =
        p.trace ++
          (if (if a &&& 0x1FFFF ≥ 0x18000 then (a &&& 0x1FFFF) &&& 0xFFFF7FFF
               else a &&& 0x1FFFF) <
              (if p.mode ≥ 3 then 0x14000 else 0x10000) then
            [Ev.store Region.vram
              ((if a &&& 0x1FFFF ≥ 0x18000 then (a &&& 0x1FFFF) &&& 0xFFFF7FFF
                else a &&& 0x1FFFF) &&& 0xFFFFFFFE) 2, Ev.sync]
          else [Ev.sync])) ∧
    (∀ (p : PPU) (a v w : Nat), w ≠ 1 →
      (p.WriteVRAM w a v).trace =
        p.trace ++
          [Ev.store Region.vram
            (if a &&& 0x1FFFF ≥ 0x18000 then (a &&& 0x1FFFF) &&& 0xFFFF7FFF
             else a &&& 0x1FFFF) w, Ev.sync]) ∧
    (∀ (p : PPU) (a v w : Nat),
      (p.WriteOAM w a v).trace =
        p.trace ++ (if w = 1 then [] else [Ev.store Region.oam (a &&& 0x3FF) w])) := by
  refine ⟨?_, ?_, ?_, ?_, ?_⟩
  · intro p a v
    unfold PPU.WritePRAM PPU.Sync
    rw [if_pos rfl]
    simp
  · intro p a v w hw
    unfold PPU.WritePRAM PPU.Sync
    rw [if_neg hw]
    simp
  · intro p a v
    unfold PPU.WriteVRAM PPU.Sync
    rw [if_pos rfl]
    dsimp only
    split_ifs <;> simp
  · intro p a v w hw
    unfold PPU.WriteVRAM PPU.Sync
    rw [if_neg hw]
    dsimp only
    split_ifs <;> simp
  · intro p a v w
    unfold PPU.WriteOAM
    split_ifs <;> simp

theorem claim_C3_witness :
    ((PPU.zeroed.WritePRAM 1 6 9).trace =
      PPU.zeroed.trace ++ [Ev.store Region.pram (6 &&& 0x3FE) 2, Ev.sync]) ∧
    ((PPU.zeroed.WritePRAM 2 4 9).trace =
      PPU.zeroed.trace ++ [Ev.store Region.pram (4 &&& 0x3FF) 2, Ev.sync]) ∧
    ((PPU.zeroed.WriteVRAM 4 8 9).trace =
      PPU.zeroed.trace ++
        [Ev.store Region.vram
          (if 8 &&& 0x1FFFF ≥ 0x18000 then (8 &&& 0x1FFFF) &&& 0xFFFF7FFF
           else 8 &&& 0x1FFFF) 4, Ev.sync]) ∧
    ((PPU.zeroed.WriteOAM 4 8 9).trace =
      PPU.zeroed.trace ++ (if (4 : Nat) = 1 then [] else [Ev.store Region.oam (8 &&& 0x3FF) 4])) :=
  ⟨claim_C3_amended_sync_after_store.1 PPU.zeroed 6 9,
   claim_C3_amended_sync_after_store.2.1 PPU.zeroed 4 9 2 (by decide),
   claim_C3_amended_sync_after_store.2.2.2.1 PPU.zeroed 8 9 4 (by decide),
   claim_C3_amended_sync_after_store.2.2.2.2 PPU.zeroed 8 9 4⟩

/-- C3 (counterexample to the claim as stated): an 8-bit `WriteOAM` performs
no `Sync()` call at all (the state is untouched, its trace stays empty), and
a `WritePRAM` stores the value into palette memory before `Sync()` runs —
refuting both that every write accessor invokes `Sync()` exactly once and
that the catch-up precedes the store. -/
theorem claim_C3_counterexample :
    PPU.zeroed.WriteOAM 1 0 5 = PPU.zeroed ∧
    (PPU.zeroed.WritePRAM 1 0 5).trace = [Ev.store Region.pram 0 2, Ev.sync] :=
  ⟨rfl, rfl⟩

/-- Both bytes of a replicated 16-bit store hold the written byte. -/
theorem writeLE2_replicate (mem : Nat → Nat) (off v : Nat) (hv : v < 256) (k : Nat)
    (hk : k = off ∨ k = off + 1) : writeLE 2 mem off (v % 256 * 0x0101) k = v := by
  have hv256 : v % 256 = v := Nat.mod_eq_of_lt hv
  rcases hk with hk | hk
  · subst hk
    rw [writeLE_two, Function.update_noteq (by omega), Function.update_same, hv256]
    omega
  · subst hk
    rw [writeLE_two, Function.update_same, hv256]
    have hdiv : v * 257 / 256 = v := by omega
    show v * 257 / 256 % 256 = v
    rw [hdiv, hv256]

/-- C4 (counterexample to the claim as stated): in bitmap mode 3, the 8-bit
VRAM write at address 0x1C000 (masked address 0x1C000, inside the claimed
range up to 0x1FFFF) maps to 0x14000, which is NOT below the bitmap-mode
limit 0x14000 — so the write is discarded and the read-back at the
mirror-cleared address returns 0, not the written byte 0xAB. -/
theorem claim_C4_counterexample :
    PPU.zeroed3.mode ≥ 3 ∧ 0x18000 ≤ 0x1C000 &&& 0x1FFFF ∧
    (PPU.zeroed3.WriteVRAM 1 0x1C000 0xAB).vram = PPU.zeroed3.vram ∧
    PPU.ReadVRAM 1 (PPU.zeroed3.WriteVRAM 1 0x1C000 0xAB) 0x14000 = 0 :=
  ⟨by decide, by decide, rfl, by decide⟩

/-- C4 (amended): for a byte write whose masked address lies in the mirrored
sub-range `[0x18000, 0x1FFFF]` of the video region, the claim's bitmap-mode
read-back guarantee holds only on `[0x18000, 0x1BFFF]` (whose mirror target
lies below the bitmap limit 0x14000); for `[0x1C000, 0x1FFFF]` the byte
write is discarded even in bitmap modes, and in non-bitmap modes (limit
0x10000) it is always discarded, the read returning the prior value. -/
theorem claim_C4_amended_vram_mirror (p : PPU) (a v : Nat) (hv : v < 256)
    (hm : 0x18000 ≤ a &&& 0x1FFFF) :
    (p.mode ≥ 3 → a &&& 0x1FFFF ≤ 0x1BFFF →
      PPU.ReadVRAM 1 (p.WriteVRAM 1 a v) ((a &&& 0x1FFFF) - 0x8000) = v) ∧
    (p.mode ≥ 3 → 0x1C000 ≤ a &&& 0x1FFFF →
      (p.WriteVRAM 1 a v).vram = p.vram ∧
      PPU.ReadVRAM 1 (p.WriteVRAM 1 a v) ((a &&& 0x1FFFF) - 0x8000) =
        PPU.ReadVRAM 1 p ((a &&& 0x1FFFF) - 0x8000)) ∧
    (p.mode < 3 →
      (p.WriteVRAM 1 a v).vram = p.vram ∧
      PPU.ReadVRAM 1 (p.WriteVRAM 1 a v) ((a &&& 0x1FFFF) - 0x8000) =
        PPU.ReadVRAM 1 p ((a &&& 0x1FFFF) - 0x8000)) := by
  have hub : a &&& 0x1FFFF < 0x20000 := by
    rw [and_mask_1FFFF]
    exact Nat.mod_lt _ (by norm_num)
  have hmir : (a &&& 0x1FFFF) &&& 0xFFFF7FFF = (a &&& 0x1FFFF) - 0x8000 :=
    mirror_mask _ hm hub
  have hwv : (p.WriteVRAM 1 a v).vram =
      (if (a &&& 0x1FFFF) - 0x8000 < (if p.mode ≥ 3 then 0x14000 else 0x10000) then
        writeLE 2 p.vram (((a &&& 0x1FFFF) - 0x8000) &&& 0xFFFFFFFE) (v % 256 * 0x0101)
      else p.vram) := by
    unfold PPU.WriteVRAM PPU.Sync
    rw [if_pos rfl]
    dsimp only
    rw [if_pos hm, hmir]
    split_ifs <;> rfl
  have hr1 : ((a &&& 0x1FFFF) - 0x8000) &&& 0x1FFFF = (a &&& 0x1FFFF) - 0x8000 := by
    rw [and_mask_1FFFF]
    omega
  have hread : ∀ q : PPU, PPU.ReadVRAM 1 q ((a &&& 0x1FFFF) - 0x8000) =
      q.vram ((a &&& 0x1FFFF) - 0x8000) := by
    intro q
    unfold PPU.ReadVRAM
    dsimp only
    rw [hr1, if_neg (by omega), readLE_one]
  refine ⟨?_, ?_, ?_⟩
  · intro hmode hle
    rw [hread, hwv, if_pos hmode, if_pos (by omega)]
    have hre : ((a &&& 0x1FFFF) - 0x8000) &&& 0xFFFFFFFE =
        2 * (((a &&& 0x1FFFF) - 0x8000) / 2) := by
      rw [and_mask_FFFFFFFE]
      omega
    rw [hre]
    exact writeLE2_replicate p.vram _ v hv _ (by omega)
  · intro hmode hge
    have hv1 : (p.WriteVRAM 1 a v).vram = p.vram := by
      rw [hwv, if_pos hmode, if_neg (by omega)]
    exact ⟨hv1, by rw [hread, hread, hv1]⟩
  · intro hmode
    have hv1 : (p.WriteVRAM 1 a v).vram = p.vram := by
      rw [hwv, if_neg (show ¬ p.mode ≥ 3 from by omega), if_neg (by omega)]
    exact ⟨hv1, by rw [hread, hread, hv1]⟩

theorem claim_C4_witness :
    (0x55 : Nat) < 256 ∧ 0x18000 ≤ 0x18010 &&& 0x1FFFF ∧
    ((PPU.zeroed3.mode ≥ 3 → 0x18010 &&& 0x1FFFF ≤ 0x1BFFF →
      PPU.ReadVRAM 1 (PPU.zeroed3.WriteVRAM 1 0x18010 0x55)
        ((0x18010 &&& 0x1FFFF) - 0x8000) = 0x55) ∧
     (PPU.zeroed3.mode ≥ 3 → 0x1C000 ≤ 0x18010 &&& 0x1FFFF →
      (PPU.zeroed3.WriteVRAM 1 0x18010 0x55).vram = PPU.zeroed3.vram ∧
      PPU.ReadVRAM 1 (PPU.zeroed3.WriteVRAM 1 0x18010 0x55)
          ((0x18010 &&& 0x1FFFF) - 0x8000) =
        PPU.ReadVRAM 1 PPU.zeroed3 ((0x18010 &&& 0x1FFFF) - 0x8000)) ∧
     (PPU.zeroed3.mode < 3 →
      (PPU.zeroed3.WriteVRAM 1 0x18010 0x55).vram = PPU.zeroed3.vram ∧
      PPU.ReadVRAM 1 (PPU.zeroed3.WriteVRAM 1 0x18010 0x55)
          ((0x18010 &&& 0x1FFFF) - 0x8000) =
        PPU.ReadVRAM 1 PPU.zeroed3 ((0x18010 &&& 0x1FFFF) - 0x8000))) :=
  ⟨by decide, by decide,
    claim_C4_amended_vram_mirror PPU.zeroed3 0x18010 0x55 (by decide) (by decide)⟩

/-! ### Bounds of the accessor footprints (claim C10) -/

theorem WritePRAM1_pram_eq (p : PPU) (a v : Nat) :
    (PPU.WritePRAM 1 p a v).pram = writeLE 2 p.pram (a &&& 0x3FE) (v % 256 * 0x0101) := by
  unfold PPU.WritePRAM
  rw [if_pos rfl]
  rfl

theorem WritePRAM_pram_eq (p : PPU) (a v w : Nat) (hw : w ≠ 1) :
    (PPU.WritePRAM w p a v).pram = writeLE w p.pram (a &&& 0x3FF) v := by
  unfold PPU.WritePRAM
  rw [if_neg hw]
  rfl

theorem WriteOAM_oam_eq (p : PPU) (a v w : Nat) (hw : w ≠ 1) :
    (PPU.WriteOAM w p a v).oam = writeLE w p.oam (a &&& 0x3FF) v := by
  unfold PPU.WriteOAM
  rw [if_neg hw]

theorem WriteVRAM_vram_eq (p : PPU) (a v w : Nat) (hw : w ≠ 1) :
    (PPU.WriteVRAM w p a v).vram =
      writeLE w p.vram
        (if a &&& 0x1FFFF ≥ 0x18000 then (a &&& 0x1FFFF) &&& 0xFFFF7FFF else a &&& 0x1FFFF)
        v := by
  unfold PPU.WriteVRAM PPU.Sync
  rw [if_neg hw]

theorem WriteVRAM1_vram_eq (p : PPU) (a v : Nat) :
    (PPU.WriteVRAM 1 p a v).vram =
      (if (if a &&& 0x1FFFF ≥ 0x18000 then (a &&& 0x1FFFF) &&& 0xFFFF7FFF
           else a &&& 0x1FFFF) < (if p.mode ≥ 3 then 0x14000 else 0x10000) then
        writeLE 2 p.vram
          ((if a &&& 0x1FFFF ≥ 0x18000 then (a &&& 0x1FFFF) &&& 0xFFFF7FFF
            else a &&& 0x1FFFF) &&& 0xFFFFFFFE) (v % 256 * 0x0101)
      else p.vram) := by
  unfold PPU.WriteVRAM PPU.Sync
  rw [if_pos rfl]
  dsimp only
  split_ifs <;> rfl

theorem vramOff_spec (a : Nat) :
    (if a &&& 0x1FFFF ≥ 0x18000 then (a &&& 0x1FFFF) &&& 0xFFFF7FFF else a &&& 0x1FFFF)
      = (if 0x18000 ≤ a % 0x20000 then a % 0x20000 - 0x8000 else a % 0x20000) := by
  rw [and_mask_1FFFF]
  by_cases h : 0x18000 ≤ a % 0x20000
  · rw [if_pos h, if_pos h, mirror_mask _ h (Nat.mod_lt _ (by norm_num))]
  · rw [if_neg h, if_neg h]

/-- C10: with the incoming address aligned to the access width, every
masked offset plus the access width stays within the backing array (0x400
bytes for palette, 0x400 for object attributes, 0x18000 for video memory):
writes leave every byte at or beyond the bound untouched, and reads depend
only on the in-bounds bytes.  For a width-unaligned 32-bit access at the top
of a region (masked palette offset 0x3FE) the access escapes the array, so
alignment is a genuine precondition. -/
theorem claim_C10_accessor_bounds :
    (∀ w p a v k, (w = 1 ∨ w = 2 ∨ w = 4) → a % w = 0 → 0x400 ≤ k →
      (PPU.WritePRAM w p a v).pram k = p.pram k) ∧
    (∀ w p a v k, (w = 1 ∨ w = 2 ∨ w = 4) → a % w = 0 → 0x400 ≤ k →
      (PPU.WriteOAM w p a v).oam k = p.oam k) ∧
    (∀ w p a v k, (w = 1 ∨ w = 2 ∨ w = 4) → a % w = 0 → 0x18000 ≤ k →
      (PPU.WriteVRAM w p a v).vram k = p.vram k) ∧
    (∀ w p q a, (w = 1 ∨ w = 2 ∨ w = 4) → a % w = 0 →
      (∀ k, k < 0x400 → p.pram k = q.pram k) →
      PPU.ReadPRAM w p a = PPU.ReadPRAM w q a) ∧
    (∀ w p q a, (w = 1 ∨ w = 2 ∨ w = 4) → a % w = 0 →
      (∀ k, k < 0x400 → p.oam k = q.oam k) →
      PPU.ReadOAM w p a = PPU.ReadOAM w q a) ∧
    (∀ w p q a, (w = 1 ∨ w = 2 ∨ w = 4) → a % w = 0 →
      (∀ k, k < 0x18000 → p.vram k = q.vram k) →
      PPU.ReadVRAM w p a = PPU.ReadVRAM w q a) ∧
    (PPU.WritePRAM 4 PPU.zeroed 0x3FE 0xAB0000).pram 0x400 ≠ PPU.zeroed.pram 0x400 := by
  refine ⟨?_, ?_, ?_, ?_, ?_, ?_, by decide⟩
  · intro w p a v k hw ha hk
    rcases hw with rfl | rfl | rfl
    · rw [WritePRAM1_pram_eq]
      apply writeLE_out
      right
      rw [and_mask_3FE]
      omega
    · rw [WritePRAM_pram_eq p a v 2 (by decide)]
      apply writeLE_out
      right
      rw [and_mask_3FF]
      omega
    · rw [WritePRAM_pram_eq p a v 4 (by decide)]
      apply writeLE_out
      right
      rw [and_mask_3FF]
      omega
  · intro w p a v k hw ha hk
    rcases hw with rfl | rfl | rfl
    · rfl
    · rw [WriteOAM_oam_eq p a v 2 (by decide)]
      apply writeLE_out
      right
      rw [and_mask_3FF]
      omega
    · rw [WriteOAM_oam_eq p a v 4 (by decide)]
      apply writeLE_out
      right
      rw [and_mask_3FF]
      omega
  · intro w p a v k hw ha hk
    rcases hw with rfl | rfl | rfl
    · rw [WriteVRAM1_vram_eq, vramOff_spec]
      have hb := Nat.mod_lt a (show 0 < 0x20000 by norm_num)
      by_cases h : 0x18000 ≤ a % 0x20000
      · rw [if_pos h]
        split_ifs
        all_goals first
          | rfl
          | (apply writeLE_out; right; rw [and_mask_FFFFFFFE]; omega)
      · rw [if_neg h]
        split_ifs
        all_goals first
          | rfl
          | (apply writeLE_out; right; rw [and_mask_FFFFFFFE]; omega)
    · rw [WriteVRAM_vram_eq p a v 2 (by decide)]
      apply writeLE_out
      right
      rw [vramOff_spec]
      have := Nat.mod_lt a (show 0 < 0x20000 by norm_num)
      by_cases h : 0x18000 ≤ a % 0x20000
      · rw [if_pos h]
        omega
      · rw [if_neg h]
        omega
    · rw [WriteVRAM_vram_eq p a v 4 (by decide)]
      apply writeLE_out
      right
      rw [vramOff_spec]
      have := Nat.mod_lt a (show 0 < 0x20000 by norm_num)
      by_cases h : 0x18000 ≤ a % 0x20000
      · rw [if_pos h]
        omega
      · rw [if_neg h]
        omega
  · intro w p q a hw ha hpq
    unfold PPU.ReadPRAM
    apply readLE_congr
    intro k hk1 hk2
    apply hpq
    rw [and_mask_3FF] at hk2
    rcases hw with rfl | rfl | rfl
    · omega
    · omega
    · omega
  · intro w p q a hw ha hpq
    unfold PPU.ReadOAM
    apply readLE_congr
    intro k hk1 hk2
    apply hpq
    rw [and_mask_3FF] at hk2
    rcases hw with rfl | rfl | rfl
    · omega
    · omega
    · omega
  · intro w p q a hw ha hpq
    unfold PPU.ReadVRAM
    dsimp only
    apply readLE_congr
    intro k hk1 hk2
    apply hpq
    rw [vramOff_spec] at hk2
    have := Nat.mod_lt a (show 0 < 0x20000 by norm_num)
    by_cases h : 0x18000 ≤ a % 0x20000
    · rw [if_pos h] at hk2
      rcases hw with rfl | rfl | rfl
      · omega
      · omega
      · omega
    · rw [if_neg h] at hk2
      rcases hw with rfl | rfl | rfl
      · omega
      · omega
      · omega

theorem claim_C10_witness :
    ((4 : Nat) = 1 ∨ (4 : Nat) = 2 ∨ (4 : Nat) = 4) ∧ (0x17FFC : Nat) % 4 = 0 ∧
    ((PPU.WriteVRAM 4 PPU.zeroed 0x17FFC 5).vram 0x18000 = PPU.zeroed.vram 0x18000) ∧
    ((2 : Nat) = 1 ∨ (2 : Nat) = 2 ∨ (2 : Nat) = 4) ∧ (0x3FE : Nat) % 2 = 0 ∧
    (∀ k, k < 0x400 → PPU.zeroed.pram k = PPU.outAltered.pram k) ∧
    (PPU.ReadPRAM 2 PPU.zeroed 0x3FE = PPU.ReadPRAM 2 PPU.outAltered 0x3FE) :=
  ⟨by decide, by decide,
   claim_C10_accessor_bounds.2.2.1 4 PPU.zeroed 0x17FFC 5 0x18000
     (by decide) (by decide) (by decide),
   by decide, by decide, by decide,
   claim_C10_accessor_bounds.2.2.2.1 2 PPU.zeroed PPU.outAltered 0x3FE
     (by decide) (by decide) (by decide)⟩
